import Mathlib

/-
  Shallow embedding of src/FormManager.ts (FormManager form-state engine).

  Field values are `any` in the TypeScript; we fix them to `String`
  (`Val`), whose decidable equality models the JavaScript `===` check
  on primitive values used by the engine.

  The two JavaScript objects `formFields` and
  `conditionallyRemovedFormFields` are modelled as association lists
  with insertion-order semantics: `setField` replaces the record at an
  existing key in place (JS `obj[k] = v` keeps the key position) or
  appends a fresh key, and `delField` removes the key (JS `delete`).

  The TypeScript passes the whole `FormManager` object to user-supplied
  predicates (`ValidationRule.validate` receives `form`, and the
  conditional event carries `form` and `formField` references).  An
  inductive structure cannot contain functions over itself, so the
  embedding hands predicates a `FormView`: the name-to-value snapshots
  of both mappings, which is the state the engine itself exposes to
  predicates through `getValues`-style accessors.  The conditional
  event carries the evaluated field's name and value together with the
  view, mirroring the `formField`, `form` and `reason` members of
  `FormFieldConditionalEvent`.

  Every fallible engine entry point (the TypeScript throws
  `Error(name + " form field does not exist.")`) returns
  `Except String`.  Operations additionally return a trace
  (`List Ev`) recording every user-supplied predicate evaluation:
  `Ev.vr t` when a validation rule of type `t` is run and
  `Ev.cond n` when field `n`'s conditional predicate is run, so that
  the "evaluated exactly once" claims can be stated about the code.
-/

abbrev Val := String

structure FormView where
  activeValues : List (String × Val)
  removedValues : List (String × Val)

structure ValidationRule where
  type : String
  errorMessage : String
  validate : Val → FormView → Bool

structure FormFieldConditionalEvent where
  fieldName : String
  fieldValue : Val
  reason : String
  view : FormView

structure FormFieldConditional where
  isShowing : FormFieldConditionalEvent → Bool
  dependencies : List String

/-- Default conditional of a fresh field: always visible, no dependencies
(mirrors the initializer of the `conditional` member of `FormField`). -/
def defaultConditional : FormFieldConditional :=
  { isShowing := fun _ => true, dependencies := [] }

structure FormField where
  name : String
  value : Val
  isValid : Bool := false
  isTouched : Bool := false
  errorMessage : String := ""
  validationRules : List ValidationRule := []
  context : List (String × Val) := []
  conditional : FormFieldConditional := defaultConditional
  isShowing : Bool := true

abbrev FieldMap := List (String × FormField)

/-- JS property read `obj[name]`: first (and, for well-formed objects, only)
binding of the key. -/
def lookupField : FieldMap → String → Option FormField
  | [], _ => none
  | (k, f) :: rest, name => if k = name then some f else lookupField rest name

/-- JS property write `obj[name] = f`: replace in place if the key exists,
otherwise append (JS objects keep insertion order of string keys). -/
def setField : FieldMap → String → FormField → FieldMap
  | [], name, f => [(name, f)]
  | (k, g) :: rest, name, f =>
      if k = name then (k, f) :: rest else (k, g) :: setField rest name f

/-- JS `delete obj[name]`: drop the key's binding, keep the others in
order. -/
def delField : FieldMap → String → FieldMap
  | [], _ => []
  | (k, g) :: rest, name =>
      if k = name then delField rest name else (k, g) :: delField rest name

/-- Object.keys. -/
def keysOf (l : FieldMap) : List String := l.map Prod.fst

/-- Predicate-evaluation trace events: `vr t` records that a validation
rule of type `t` was evaluated, `cond n` that field `n`'s conditional
predicate was evaluated. -/
inductive Ev where
  | vr (ruleType : String)
  | cond (fieldName : String)
deriving DecidableEq, Repr

/-- Result record of `getValidityOfFormField`. -/
structure Validity where
  isValid : Bool
  errorMessage : String
deriving DecidableEq, Repr

structure FormManager where
  formFields : FieldMap := []
  conditionallyRemovedFormFields : FieldMap := []

def emptyFM : FormManager := {}

/-- getValues: snapshot of the active mapping's values, keyed by each
record's own `name` member as in the TypeScript `forEach`. -/
def FormManager.getValues (m : FormManager) : List (String × Val) :=
  m.formFields.map (fun p => (p.2.name, p.2.value))

/-- The state snapshot handed to user-supplied predicates (stands for the
`form` reference the TypeScript passes). -/
def FormManager.view (m : FormManager) : FormView :=
  { activeValues := m.formFields.map (fun p => (p.2.name, p.2.value))
    removedValues := m.conditionallyRemovedFormFields.map (fun p => (p.2.name, p.2.value)) }

/-- addFormField: construct a fresh field (all defaults) and store it in
`formFields`; returns the manager and, as the TypeScript does, the field. -/
def FormManager.addFormField (m : FormManager) (name : String) (initialValue : Val) :
    FormManager × FormField :=
  let newFormField : FormField := { name := name, value := initialValue }
  ({ m with formFields := setField m.formFields name newFormField }, newFormField)

/-- removeFormField: read the field from `formFields`, delete the key from
`formFields` (only), and return the field — `undefined` (`none`) when the
key is absent; the removed mapping is never consulted and nothing throws. -/
def FormManager.removeFormField (m : FormManager) (name : String) :
    Option FormField × FormManager :=
  (lookupField m.formFields name,
   { m with formFields := delField m.formFields name })

/-- Loop body of isFormValid: scan the entries, flip to false and break at
the first record with `isValid = false`. -/
def isFormValidLoop : List FormField → Bool
  | [] => true
  | f :: rest => if f.isValid = false then false else isFormValidLoop rest

/-- isFormValid: the loop runs over `Object.keys(this.formFields)` and looks
each key up in `formFields`; for an object that is exactly its entry list. -/
def FormManager.isFormValid (m : FormManager) : Bool :=
  isFormValidLoop (m.formFields.map Prod.snd)

def FormManager.getVisibleFormFields (m : FormManager) : FieldMap := m.formFields

def FormManager.getConditionallyRemovedFormFields (m : FormManager) : FieldMap :=
  m.conditionallyRemovedFormFields

/-- getVisibleFormFieldByName: looks only in the active mapping. -/
def FormManager.getVisibleFormFieldByName (m : FormManager) (name : String) :
    Option FormField :=
  lookupField m.formFields name

/-- Rule loop of getValidityOfFormField: evaluate the rules in declaration
order, record each evaluation, and break at the first rule returning
false, keeping its errorMessage. -/
def runRulesLoop (view : FormView) (value : Val) :
    List ValidationRule → Validity × List Ev
  | [] => ({ isValid := true, errorMessage := "" }, [])
  | rule :: rest =>
      let rulePassed := rule.validate value view
      if rulePassed = false then
        ({ isValid := false, errorMessage := rule.errorMessage }, [Ev.vr rule.type])
      else
        let r := runRulesLoop view value rest
        (r.1, Ev.vr rule.type :: r.2)

def FormManager.getValidityOfFormField (m : FormManager) (formField : FormField) :
    Validity × List Ev :=
  runRulesLoop m.view formField.value formField.validationRules

/-- runValidations: the field must exist in `formFields`, else throw; write
the computed validity onto the field's `isValid` / `errorMessage`. -/
def FormManager.runValidations (m : FormManager) (name : String) :
    Except String (FormManager × List Ev) :=
  match lookupField m.formFields name with
  | none => .error (name ++ " form field does not exist.")
  | some control =>
      let r := m.getValidityOfFormField control
      let written : FormField :=
        { control with isValid := r.1.isValid, errorMessage := r.1.errorMessage }
      .ok ({ m with formFields := setField m.formFields name written }, r.2)

/-- The conditional event built by runConditional (TypeScript sets
`formField`, `reason`, `form`). -/
def condEventFor (m : FormManager) (reason : String) (formField : FormField) :
    FormFieldConditionalEvent :=
  { fieldName := formField.name
    fieldValue := formField.value
    reason := reason
    view := m.view }

/-- Body of runConditional once the field has been found: evaluate the
predicate and move the record into the mapping the result selects. -/
def FormManager.applyConditional (m : FormManager) (name reason : String)
    (formField : FormField) : FormManager × List Ev :=
  let isShowing := formField.conditional.isShowing (condEventFor m reason formField)
  if isShowing then
    ({ m with formFields := setField m.formFields name formField
              conditionallyRemovedFormFields :=
                delField m.conditionallyRemovedFormFields name },
     [Ev.cond name])
  else
    ({ m with conditionallyRemovedFormFields :=
                setField m.conditionallyRemovedFormFields name formField
              formFields := delField m.formFields name },
     [Ev.cond name])

/-- runConditional: the field is searched in `formFields` first, then in
`conditionallyRemovedFormFields` (`controlsObjToUse`); throws when absent
from both. -/
def FormManager.runConditional (m : FormManager) (name reason : String) :
    Except String (FormManager × List Ev) :=
  match lookupField m.formFields name with
  | some formField => .ok (m.applyConditional name reason formField)
  | none =>
      match lookupField m.conditionallyRemovedFormFields name with
      | some formField => .ok (m.applyConditional name reason formField)
      | none => .error (name ++ " form field does not exist.")

/-- The two for-loops of updateFormFieldStateOnValueChange: run
runConditional on each listed name in order, threading the state and
concatenating the traces; an exception aborts the whole call. -/
def runConditionalList (reason : String) :
    FormManager → List String → Except String (FormManager × List Ev)
  | m, [] => .ok (m, [])
  | m, n :: rest =>
      match m.runConditional n reason with
      | .error e => .error e
      | .ok (m1, tr1) =>
          match runConditionalList reason m1 rest with
          | .error e => .error e
          | .ok (m2, tr2) => .ok (m2, tr1 ++ tr2)

/-- The first dependent scan of updateFormFieldStateOnValueChange:
names of the active mapping whose conditional dependencies contain `name`
(`fieldsWithDepsOnField`). -/
def activeDeps (m : FormManager) (name : String) : List String :=
  (keysOf m.formFields).filter (fun n =>
    match lookupField m.formFields n with
    | some f => f.conditional.dependencies.contains name
    | none => false)

/-- The second dependent scan: names of the removed mapping whose
conditional dependencies contain `name` (`fieldsWithDeps`). -/
def removedDeps (m : FormManager) (name : String) : List String :=
  (keysOf m.conditionallyRemovedFormFields).filter (fun n =>
    match lookupField m.conditionallyRemovedFormFields n with
    | some c => c.conditional.dependencies.contains name
    | none => false)

/-- updateFormFieldStateOnValueChange: throw if the name is not active;
set `isTouched`; stop if the value is unchanged; otherwise write the new
value, run validations, then run the two dependent passes.  As in the
source, the removed-mapping scan happens only after the first pass has
already run (it is applied to the state the first pass produced). -/
def FormManager.updateFormFieldStateOnValueChange (m : FormManager)
    (name : String) (newValue : Val) : Except String (FormManager × List Ev) :=
  match lookupField m.formFields name with
  | none => .error (name ++ " form field does not exist.")
  | some formField =>
      let mT : FormManager :=
        { m with formFields := setField m.formFields name { formField with isTouched := true } }
      if formField.value = newValue then
        .ok (mT, [])
      else
        let written : FormField := { formField with isTouched := true, value := newValue }
        let mV : FormManager :=
          { mT with formFields := setField mT.formFields name written }
        match mV.runValidations name with
        | .error e => .error e
        | .ok (m2, trV) =>
            match runConditionalList name m2 (activeDeps m2 name) with
            | .error e => .error e
            | .ok (m3, tr1) =>
                match runConditionalList name m3 (removedDeps m3 name) with
                | .error e => .error e
                | .ok (m4, tr2) => .ok (m4, trV ++ tr1 ++ tr2)

/-- updateFormFieldStateOnBlur: throw if not active; set `isTouched`; run
validations. -/
def FormManager.updateFormFieldStateOnBlur (m : FormManager) (name : String) :
    Except String (FormManager × List Ev) :=
  match lookupField m.formFields name with
  | none => .error (name ++ " form field does not exist.")
  | some formField =>
      let mT : FormManager :=
        { m with formFields := setField m.formFields name { formField with isTouched := true } }
      mT.runValidations name

/-
  Derived observations on a manager's state, used to state the claims.
-/

/-- Membership of a name in the active mapping. -/
def memA (m : FormManager) (n : String) : Bool :=
  (lookupField m.formFields n).isSome

/-- Membership of a name in the removed mapping. -/
def memR (m : FormManager) (n : String) : Bool :=
  (lookupField m.conditionallyRemovedFormFields n).isSome

/-- Membership in at least one of the two mappings. -/
def memEither (m : FormManager) (n : String) : Bool :=
  memA m n || memR m n

/-- The name is a key of exactly one of the two mappings. -/
def exactlyOneB (m : FormManager) (n : String) : Bool :=
  (memA m n && !memR m n) || (!memA m n && memR m n)

/-- The name is a key of at most one of the two mappings. -/
def atMostOneName (m : FormManager) (n : String) : Bool :=
  !(memA m n && memR m n)

/-- Find a field the way runConditional does: active mapping first, then
the removed mapping. -/
def findFormField (m : FormManager) (n : String) : Option FormField :=
  match lookupField m.formFields n with
  | some f => some f
  | none => lookupField m.conditionallyRemovedFormFields n

/-- The conditional attached to the name's record, wherever it lives. -/
def condOf (m : FormManager) (n : String) : Option FormFieldConditional :=
  (findFormField m n).map (fun f => f.conditional)

/-- The touched flag of the name's record, wherever it lives. -/
def touchedOf (m : FormManager) (n : String) : Option Bool :=
  (findFormField m n).map (fun f => f.isTouched)

/-
  Association-list lemmas.
-/

theorem lookupField_setField_self (l : FieldMap) (k : String) (f : FormField) :
    lookupField (setField l k f) k = some f := by
  induction l with
  | nil => simp [setField, lookupField]
  | cons p rest ih =>
      obtain ⟨k', g⟩ := p
      by_cases h : k' = k
      · subst h; simp [setField, lookupField]
      · simp [setField, lookupField, h, ih]

theorem lookupField_setField_ne (l : FieldMap) (k k' : String) (f : FormField)
    (h : k' ≠ k) : lookupField (setField l k f) k' = lookupField l k' := by
  have h2 : ¬ k = k' := fun hk => h hk.symm
  induction l with
  | nil => simp [setField, lookupField, h2]
  | cons p rest ih =>
      obtain ⟨k0, g⟩ := p
      by_cases h0 : k0 = k
      · subst h0; simp [setField, lookupField, h2]
      · simp [setField, lookupField, h0, ih]

theorem lookupField_delField_self (l : FieldMap) (k : String) :
    lookupField (delField l k) k = none := by
  induction l with
  | nil => simp [delField, lookupField]
  | cons p rest ih =>
      obtain ⟨k0, g⟩ := p
      by_cases h0 : k0 = k
      · subst h0; simpa [delField, lookupField] using ih
      · simpa [delField, lookupField, h0] using ih

theorem lookupField_delField_ne (l : FieldMap) (k k' : String)
    (h : k' ≠ k) : lookupField (delField l k) k' = lookupField l k' := by
  have h2 : ¬ k = k' := fun hk => h hk.symm
  induction l with
  | nil => simp [delField, lookupField]
  | cons p rest ih =>
      obtain ⟨k0, g⟩ := p
      by_cases h0 : k0 = k
      · subst h0; simpa [delField, lookupField, h2] using ih
      · simp [delField, lookupField, h0, ih]

theorem delField_of_lookup_none (l : FieldMap) (k : String)
    (h : lookupField l k = none) : delField l k = l := by
  induction l with
  | nil => simp [delField]
  | cons p rest ih =>
      obtain ⟨k0, g⟩ := p
      by_cases h0 : k0 = k
      · subst h0; simp [lookupField] at h
      · simp [lookupField, h0] at h
        simp [delField, h0, ih h]

theorem setField_of_lookup_eq (l : FieldMap) (k : String) (f : FormField)
    (h : lookupField l k = some f) : setField l k f = l := by
  induction l with
  | nil => simp [lookupField] at h
  | cons p rest ih =>
      obtain ⟨k0, g⟩ := p
      by_cases h0 : k0 = k
      · subst h0
        simp [lookupField] at h
        simp [setField, h]
      · simp [lookupField, h0] at h
        simp [setField, h0, ih h]

theorem mem_keysOf_iff (l : FieldMap) (k : String) :
    k ∈ keysOf l ↔ (lookupField l k).isSome = true := by
  induction l with
  | nil => simp [keysOf, lookupField]
  | cons p rest ih =>
      obtain ⟨k0, g⟩ := p
      by_cases h0 : k0 = k
      · subst h0; simp [keysOf, lookupField]
      · have h1 : ¬ k = k0 := fun hk => h0 hk.symm
        simp [keysOf, lookupField, h0, h1] at ih ⊢
        exact ih

theorem keysOf_setField_of_isSome (l : FieldMap) (k : String) (f : FormField)
    (h : (lookupField l k).isSome = true) :
    keysOf (setField l k f) = keysOf l := by
  induction l with
  | nil => simp [lookupField] at h
  | cons p rest ih =>
      obtain ⟨k0, g⟩ := p
      by_cases h0 : k0 = k
      · subst h0; simp [setField, keysOf]
      · simp [lookupField, h0] at h
        simp [setField, keysOf, h0] at ih ⊢
        exact ih h

theorem keysOf_setField_of_none (l : FieldMap) (k : String) (f : FormField)
    (h : lookupField l k = none) :
    keysOf (setField l k f) = keysOf l ++ [k] := by
  induction l with
  | nil => simp [setField, keysOf]
  | cons p rest ih =>
      obtain ⟨k0, g⟩ := p
      by_cases h0 : k0 = k
      · subst h0; simp [lookupField] at h
      · simp [lookupField, h0] at h
        simp [setField, keysOf, h0] at ih ⊢
        exact ih h

theorem nodup_keysOf_setField (l : FieldMap) (k : String) (f : FormField)
    (h : (keysOf l).Nodup) : (keysOf (setField l k f)).Nodup := by
  cases hl : lookupField l k with
  | some g =>
      rw [keysOf_setField_of_isSome l k f (by simp [hl])]
      exact h
  | none =>
      rw [keysOf_setField_of_none l k f hl]
      have hk : k ∉ keysOf l := by
        rw [mem_keysOf_iff, hl]; simp
      simp [List.nodup_append, h, hk]

theorem keysOf_cons (k : String) (g : FormField) (rest : FieldMap) :
    keysOf ((k, g) :: rest) = k :: keysOf rest := rfl

theorem mem_keysOf_delField (l : FieldMap) (k x : String)
    (h : x ∈ keysOf (delField l k)) : x ∈ keysOf l := by
  induction l with
  | nil => simp [delField, keysOf] at h
  | cons p rest ih =>
      obtain ⟨k0, g⟩ := p
      rw [keysOf_cons]
      by_cases h0 : k0 = k
      · subst h0
        rw [show delField ((k0, g) :: rest) k0 = delField rest k0 by simp [delField]] at h
        exact List.mem_cons_of_mem _ (ih h)
      · rw [show delField ((k0, g) :: rest) k = (k0, g) :: delField rest k by
              simp [delField, h0]] at h
        rw [keysOf_cons] at h
        rcases List.mem_cons.mp h with h | h
        · exact List.mem_cons.mpr (Or.inl h)
        · exact List.mem_cons_of_mem _ (ih h)

theorem nodup_keysOf_delField (l : FieldMap) (k : String)
    (h : (keysOf l).Nodup) : (keysOf (delField l k)).Nodup := by
  induction l with
  | nil => simp [delField, keysOf]
  | cons p rest ih =>
      obtain ⟨k0, g⟩ := p
      rw [keysOf_cons] at h
      rcases List.nodup_cons.mp h with ⟨hk0, hrest⟩
      by_cases h0 : k0 = k
      · subst h0
        rw [show delField ((k0, g) :: rest) k0 = delField rest k0 by simp [delField]]
        exact ih hrest
      · rw [show delField ((k0, g) :: rest) k = (k0, g) :: delField rest k by
              simp [delField, h0]]
        rw [keysOf_cons]
        exact List.nodup_cons.mpr
          ⟨fun hmem => hk0 (mem_keysOf_delField rest k k0 hmem), ih hrest⟩

theorem memEither_iff_find (m : FormManager) (n : String) :
    memEither m n = true ↔ ∃ f, findFormField m n = some f := by
  unfold memEither memA memR findFormField
  cases h1 : lookupField m.formFields n with
  | some f => simp [h1]
  | none =>
      cases h2 : lookupField m.conditionallyRemovedFormFields n with
      | some f => simp [h1, h2]
      | none => simp [h1, h2]

/-
  Behaviour of runConditional.
-/

theorem applyConditional_trace (m : FormManager) (nm r : String) (f : FormField) :
    (m.applyConditional nm r f).2 = [Ev.cond nm] := by
  unfold FormManager.applyConditional
  by_cases h : f.conditional.isShowing (condEventFor m r f) = true <;> simp [h]

theorem applyConditional_state (m : FormManager) (nm r : String) (f : FormField) :
    (m.applyConditional nm r f).1 =
      if f.conditional.isShowing (condEventFor m r f) then
        { m with formFields := setField m.formFields nm f
                 conditionallyRemovedFormFields :=
                   delField m.conditionallyRemovedFormFields nm }
      else
        { m with conditionallyRemovedFormFields :=
                   setField m.conditionallyRemovedFormFields nm f
                 formFields := delField m.formFields nm } := by
  unfold FormManager.applyConditional
  by_cases h : f.conditional.isShowing (condEventFor m r f) = true <;> simp [h]

theorem runConditional_eq_find (m : FormManager) (nm r : String) :
    m.runConditional nm r =
      (match findFormField m nm with
       | some f => .ok (m.applyConditional nm r f)
       | none => .error (nm ++ " form field does not exist.")) := by
  unfold FormManager.runConditional findFormField
  cases h1 : lookupField m.formFields nm with
  | some f => simp
  | none =>
      cases h2 : lookupField m.conditionallyRemovedFormFields nm with
      | some f => simp
      | none => simp

theorem runConditional_ok_elim (m : FormManager) (nm r : String)
    (m' : FormManager) (tr : List Ev)
    (h : m.runConditional nm r = .ok (m', tr)) :
    ∃ f, findFormField m nm = some f ∧ m' = (m.applyConditional nm r f).1 ∧
      tr = [Ev.cond nm] := by
  rw [runConditional_eq_find] at h
  cases hf : findFormField m nm with
  | none => rw [hf] at h; exact absurd h (by simp)
  | some f =>
      rw [hf] at h
      refine ⟨f, rfl, ?_, ?_⟩
      · have := congrArg (fun r => match r with
          | Except.ok (p : FormManager × List Ev) => p.1
          | Except.error _ => m) h
        simpa using this.symm
      · have := congrArg (fun r => match r with
          | Except.ok (p : FormManager × List Ev) => p.2
          | Except.error _ => ([] : List Ev)) h
        simp at this
        rw [← this, applyConditional_trace]

theorem runConditional_of_find_some (m : FormManager) (nm r : String) (f : FormField)
    (h : findFormField m nm = some f) :
    m.runConditional nm r = .ok ((m.applyConditional nm r f).1, [Ev.cond nm]) := by
  rw [runConditional_eq_find, h]
  show Except.ok (m.applyConditional nm r f) = _
  rw [← applyConditional_trace m nm r f]

theorem runConditional_lookup_ne (m : FormManager) (nm r : String)
    (m' : FormManager) (tr : List Ev) (k : String) (hk : k ≠ nm)
    (h : m.runConditional nm r = .ok (m', tr)) :
    lookupField m'.formFields k = lookupField m.formFields k ∧
    lookupField m'.conditionallyRemovedFormFields k =
      lookupField m.conditionallyRemovedFormFields k := by
  obtain ⟨f, hf, hm, htr⟩ := runConditional_ok_elim m nm r m' tr h
  subst hm
  rw [applyConditional_state]
  by_cases hb : f.conditional.isShowing (condEventFor m r f) = true <;>
    simp [hb, lookupField_setField_ne _ _ _ _ hk, lookupField_delField_ne _ _ _ hk]

theorem runConditional_self (m : FormManager) (nm r : String)
    (m' : FormManager) (tr : List Ev)
    (h : m.runConditional nm r = .ok (m', tr)) :
    ∃ f, findFormField m nm = some f ∧
      ((lookupField m'.formFields nm = some f ∧
        lookupField m'.conditionallyRemovedFormFields nm = none) ∨
       (lookupField m'.formFields nm = none ∧
        lookupField m'.conditionallyRemovedFormFields nm = some f)) := by
  obtain ⟨f, hf, hm, htr⟩ := runConditional_ok_elim m nm r m' tr h
  subst hm
  rw [applyConditional_state]
  refine ⟨f, hf, ?_⟩
  by_cases hb : f.conditional.isShowing (condEventFor m r f) = true
  · exact Or.inl (by simp [hb, lookupField_setField_self, lookupField_delField_self])
  · exact Or.inr (by simp [hb, lookupField_setField_self, lookupField_delField_self])

theorem runConditional_pres_find (m : FormManager) (nm r : String)
    (m' : FormManager) (tr : List Ev)
    (h : m.runConditional nm r = .ok (m', tr)) :
    ∀ k, findFormField m' k = findFormField m k := by
  intro k
  by_cases hknm : k = nm
  · subst hknm
    obtain ⟨f, hf, hcase⟩ := runConditional_self m k r m' tr h
    unfold findFormField at hf ⊢
    rcases hcase with ⟨h1, h2⟩ | ⟨h1, h2⟩ <;> simp [h1, h2, hf]
  · obtain ⟨h1, h2⟩ := runConditional_lookup_ne m nm r m' tr k hknm h
    unfold findFormField
    rw [h1, h2]

theorem runConditional_pres_memEither (m : FormManager) (nm r : String)
    (m' : FormManager) (tr : List Ev)
    (h : m.runConditional nm r = .ok (m', tr)) :
    ∀ k, memEither m k = true → memEither m' k = true := by
  intro k hk
  rw [memEither_iff_find] at hk ⊢
  rwa [runConditional_pres_find m nm r m' tr h k]

theorem runConditional_exactlyOne_self (m : FormManager) (nm r : String)
    (m' : FormManager) (tr : List Ev)
    (h : m.runConditional nm r = .ok (m', tr)) :
    exactlyOneB m' nm = true := by
  obtain ⟨f, hf, hcase⟩ := runConditional_self m nm r m' tr h
  unfold exactlyOneB memA memR
  rcases hcase with ⟨h1, h2⟩ | ⟨h1, h2⟩ <;> simp [h1, h2]

theorem runConditional_pres_exactlyOne (m : FormManager) (nm r : String)
    (m' : FormManager) (tr : List Ev)
    (h : m.runConditional nm r = .ok (m', tr)) :
    ∀ k, exactlyOneB m k = true → exactlyOneB m' k = true := by
  intro k hk
  by_cases hknm : k = nm
  · subst hknm; exact runConditional_exactlyOne_self m k r m' tr h
  · obtain ⟨h1, h2⟩ := runConditional_lookup_ne m nm r m' tr k hknm h
    unfold exactlyOneB memA memR at hk ⊢
    rw [h1, h2]; exact hk

theorem runConditional_pres_atMostOne (m : FormManager) (nm r : String)
    (m' : FormManager) (tr : List Ev)
    (h : m.runConditional nm r = .ok (m', tr)) :
    ∀ k, atMostOneName m k = true → atMostOneName m' k = true := by
  intro k hk
  by_cases hknm : k = nm
  · subst hknm
    obtain ⟨f, hf, hcase⟩ := runConditional_self m k r m' tr h
    unfold atMostOneName memA memR
    rcases hcase with ⟨h1, h2⟩ | ⟨h1, h2⟩ <;> simp [h1, h2]
  · obtain ⟨h1, h2⟩ := runConditional_lookup_ne m nm r m' tr k hknm h
    unfold atMostOneName memA memR at hk ⊢
    rw [h1, h2]; exact hk

theorem runConditional_pres_nodup (m : FormManager) (nm r : String)
    (m' : FormManager) (tr : List Ev)
    (h : m.runConditional nm r = .ok (m', tr)) :
    ((keysOf m.formFields).Nodup → (keysOf m'.formFields).Nodup) ∧
    ((keysOf m.conditionallyRemovedFormFields).Nodup →
      (keysOf m'.conditionallyRemovedFormFields).Nodup) := by
  obtain ⟨f, hf, hm, htr⟩ := runConditional_ok_elim m nm r m' tr h
  subst hm
  rw [applyConditional_state]
  by_cases hb : f.conditional.isShowing (condEventFor m r f) = true <;>
    exact ⟨fun hn => by simp [hb, nodup_keysOf_setField, nodup_keysOf_delField, hn],
           fun hn => by simp [hb, nodup_keysOf_setField, nodup_keysOf_delField, hn]⟩

theorem runConditional_total (m : FormManager) (nm r : String)
    (h : memEither m nm = true) :
    ∃ m', m.runConditional nm r = .ok (m', [Ev.cond nm]) := by
  obtain ⟨f, hf⟩ := (memEither_iff_find m nm).mp h
  exact ⟨(m.applyConditional nm r f).1, runConditional_of_find_some m nm r f hf⟩

/-
  Behaviour of runValidations.
-/

/-- The record runValidations writes back onto the field. -/
def validatedWrite (m : FormManager) (f : FormField) : FormField :=
  { f with isValid := (m.getValidityOfFormField f).1.isValid, errorMessage := (m.getValidityOfFormField f).1.errorMessage }

theorem runValidations_of_lookup (m : FormManager) (nm : String) (f : FormField)
    (h : lookupField m.formFields nm = some f) :
    m.runValidations nm = .ok
      ({ m with formFields := setField m.formFields nm (validatedWrite m f) },
       (m.getValidityOfFormField f).2) := by
  unfold FormManager.runValidations validatedWrite
  rw [h]

theorem runValidations_err (m : FormManager) (nm : String)
    (h : lookupField m.formFields nm = none) :
    m.runValidations nm = .error (nm ++ " form field does not exist.") := by
  unfold FormManager.runValidations
  rw [h]

theorem runValidations_ok_elim (m : FormManager) (nm : String)
    (m' : FormManager) (tr : List Ev)
    (h : m.runValidations nm = .ok (m', tr)) :
    ∃ f, lookupField m.formFields nm = some f ∧
      m' = { m with formFields := setField m.formFields nm (validatedWrite m f) } ∧
      tr = (m.getValidityOfFormField f).2 := by
  cases hf : lookupField m.formFields nm with
  | none => rw [runValidations_err m nm hf] at h; exact absurd h (by simp)
  | some f =>
      rw [runValidations_of_lookup m nm f hf] at h
      obtain ⟨hm, htr⟩ := Prod.mk.injEq _ _ _ _ ▸ Except.ok.inj h
      exact ⟨f, rfl, hm.symm, htr.symm⟩

theorem runValidations_lookups (m : FormManager) (nm : String)
    (m' : FormManager) (tr : List Ev)
    (h : m.runValidations nm = .ok (m', tr)) :
    (∀ k, k ≠ nm → lookupField m'.formFields k = lookupField m.formFields k) ∧
    (∃ f, lookupField m.formFields nm = some f ∧
      lookupField m'.formFields nm = some (validatedWrite m f)) ∧
    m'.conditionallyRemovedFormFields = m.conditionallyRemovedFormFields := by
  obtain ⟨f, hf, hm, htr⟩ := runValidations_ok_elim m nm m' tr h
  subst hm
  refine ⟨fun k hk => lookupField_setField_ne _ _ _ _ hk, ⟨f, hf, ?_⟩, rfl⟩
  exact lookupField_setField_self _ _ _

theorem validatedWrite_conditional (m : FormManager) (f : FormField) :
    (validatedWrite m f).conditional = f.conditional := rfl

theorem validatedWrite_isTouched (m : FormManager) (f : FormField) :
    (validatedWrite m f).isTouched = f.isTouched := rfl

theorem validatedWrite_value (m : FormManager) (f : FormField) :
    (validatedWrite m f).value = f.value := rfl

theorem runValidations_pres_mem (m : FormManager) (nm : String)
    (m' : FormManager) (tr : List Ev)
    (h : m.runValidations nm = .ok (m', tr)) :
    ∀ k, memA m' k = memA m k ∧ memR m' k = memR m k := by
  intro k
  obtain ⟨hne, ⟨f, hf, hself⟩, hrem⟩ := runValidations_lookups m nm m' tr h
  by_cases hk : k = nm
  · subst hk
    unfold memA memR
    rw [hf, hself, hrem]
    simp
  · unfold memA memR
    rw [hne k hk, hrem]
    exact ⟨rfl, rfl⟩

theorem runValidations_pres_cond_touched (m : FormManager) (nm : String)
    (m' : FormManager) (tr : List Ev)
    (h : m.runValidations nm = .ok (m', tr)) :
    ∀ k, condOf m' k = condOf m k ∧ touchedOf m' k = touchedOf m k := by
  intro k
  obtain ⟨hne, ⟨f, hf, hself⟩, hrem⟩ := runValidations_lookups m nm m' tr h
  by_cases hk : k = nm
  · subst hk
    unfold condOf touchedOf findFormField
    rw [hf, hself]
    exact ⟨rfl, rfl⟩
  · unfold condOf touchedOf findFormField
    rw [hne k hk, hrem]
    exact ⟨rfl, rfl⟩

theorem runValidations_pres_nodup (m : FormManager) (nm : String)
    (m' : FormManager) (tr : List Ev)
    (h : m.runValidations nm = .ok (m', tr)) :
    ((keysOf m.formFields).Nodup → (keysOf m'.formFields).Nodup) ∧
    ((keysOf m.conditionallyRemovedFormFields).Nodup →
      (keysOf m'.conditionallyRemovedFormFields).Nodup) := by
  obtain ⟨f, hf, hm, htr⟩ := runValidations_ok_elim m nm m' tr h
  subst hm
  exact ⟨fun hn => nodup_keysOf_setField _ _ _ hn, fun hn => hn⟩

/-
  Behaviour of the dependent-pass loop.
-/

theorem runConditionalList_nil (r : String) (m : FormManager) :
    runConditionalList r m [] = .ok (m, []) := rfl

theorem runConditionalList_cons_of (r n : String) (rest : List String)
    (m m1 m2 : FormManager) (tr1 tr2 : List Ev)
    (h1 : m.runConditional n r = .ok (m1, tr1))
    (h2 : runConditionalList r m1 rest = .ok (m2, tr2)) :
    runConditionalList r m (n :: rest) = .ok (m2, tr1 ++ tr2) := by
  unfold runConditionalList
  rw [h1]
  simp only []
  rw [h2]

theorem runConditionalList_cons_elim (r n : String) (rest : List String)
    (m m' : FormManager) (tr : List Ev)
    (h : runConditionalList r m (n :: rest) = .ok (m', tr)) :
    ∃ m1 tr1 tr2, m.runConditional n r = .ok (m1, tr1) ∧
      runConditionalList r m1 rest = .ok (m', tr2) ∧ tr = tr1 ++ tr2 := by
  unfold runConditionalList at h
  cases h1 : m.runConditional n r with
  | error e => rw [h1] at h; simp at h
  | ok p1 =>
      obtain ⟨m1, tr1⟩ := p1
      rw [h1] at h
      simp only [] at h
      cases h2 : runConditionalList r m1 rest with
      | error e => rw [h2] at h; simp at h
      | ok p2 =>
          obtain ⟨m2, tr2⟩ := p2
          rw [h2] at h
          simp only [] at h
          obtain ⟨hm, htr⟩ := Prod.mk.injEq _ _ _ _ ▸ Except.ok.inj h
          exact ⟨m1, tr1, tr2, rfl, hm ▸ h2, htr.symm⟩

theorem runConditionalList_pres (r : String) (names : List String) :
    ∀ m m' tr, runConditionalList r m names = .ok (m', tr) →
      (∀ k, findFormField m' k = findFormField m k) ∧
      (∀ k, exactlyOneB m k = true → exactlyOneB m' k = true) ∧
      (∀ k, atMostOneName m k = true → atMostOneName m' k = true) ∧
      (∀ k, k ∉ names →
        lookupField m'.formFields k = lookupField m.formFields k ∧
        lookupField m'.conditionallyRemovedFormFields k =
          lookupField m.conditionallyRemovedFormFields k) ∧
      ((keysOf m.formFields).Nodup → (keysOf m'.formFields).Nodup) ∧
      ((keysOf m.conditionallyRemovedFormFields).Nodup →
        (keysOf m'.conditionallyRemovedFormFields).Nodup) := by
  induction names with
  | nil =>
      intro m m' tr h
      rw [runConditionalList_nil] at h
      obtain ⟨hm, htr⟩ := Prod.mk.injEq _ _ _ _ ▸ Except.ok.inj h
      subst hm
      exact ⟨fun k => rfl, fun k hk => hk, fun k hk => hk, fun k _ => ⟨rfl, rfl⟩,
        fun hn => hn, fun hn => hn⟩
  | cons n rest ih =>
      intro m m' tr h
      obtain ⟨m1, tr1, tr2, h1, h2, htr⟩ := runConditionalList_cons_elim r n rest m m' tr h
      obtain ⟨ihfind, ihone, ihatm, ihout, ihna, ihnr⟩ := ih m1 m' tr2 h2
      refine ⟨?_, ?_, ?_, ?_, ?_, ?_⟩
      · intro k
        rw [ihfind k, runConditional_pres_find m n r m1 tr1 h1 k]
      · intro k hk
        exact ihone k (runConditional_pres_exactlyOne m n r m1 tr1 h1 k hk)
      · intro k hk
        exact ihatm k (runConditional_pres_atMostOne m n r m1 tr1 h1 k hk)
      · intro k hk
        have hkn : k ≠ n := fun heq => hk (heq ▸ List.mem_cons_self n rest)
        have hkrest : k ∉ rest := fun hmem => hk (List.mem_cons_of_mem n hmem)
        obtain ⟨ha, hb⟩ := runConditional_lookup_ne m n r m1 tr1 k hkn h1
        obtain ⟨ha2, hb2⟩ := ihout k hkrest
        exact ⟨ha2.trans ha, hb2.trans hb⟩
      · intro hn
        exact ihna ((runConditional_pres_nodup m n r m1 tr1 h1).1 hn)
      · intro hn
        exact ihnr ((runConditional_pres_nodup m n r m1 tr1 h1).2 hn)

theorem runConditionalList_total (r : String) (names : List String) :
    ∀ m, (∀ n ∈ names, memEither m n = true) →
      ∃ m', runConditionalList r m names = .ok (m', names.map Ev.cond) := by
  induction names with
  | nil => intro m _; exact ⟨m, rfl⟩
  | cons n rest ih =>
      intro m hpres
      obtain ⟨m1, h1⟩ := runConditional_total m n r (hpres n (List.mem_cons_self n rest))
      have hrest : ∀ n' ∈ rest, memEither m1 n' = true := by
        intro n' hn'
        exact runConditional_pres_memEither m n r m1 [Ev.cond n] h1 n'
          (hpres n' (List.mem_cons_of_mem n hn'))
      obtain ⟨m2, h2⟩ := ih m1 hrest
      exact ⟨m2, runConditionalList_cons_of r n rest m m1 m2 [Ev.cond n]
        (List.map Ev.cond rest) h1 h2⟩

/-
  Behaviour of updateFormFieldStateOnValueChange.
-/

/-- The state after the unconditional `isTouched = true` write. -/
def updTouched (m : FormManager) (nm : String) (f : FormField) : FormManager :=
  { m with formFields := setField m.formFields nm { f with isTouched := true } }

/-- The state after the `isTouched` write and the `value` write. -/
def updWritten (m : FormManager) (nm : String) (v : Val) (f : FormField) : FormManager :=
  let mT := updTouched m nm f
  let written : FormField := { f with isTouched := true, value := v }
  { mT with formFields := setField mT.formFields nm written }

theorem update_err (m : FormManager) (nm : String) (v : Val)
    (h : lookupField m.formFields nm = none) :
    m.updateFormFieldStateOnValueChange nm v =
      .error (nm ++ " form field does not exist.") := by
  unfold FormManager.updateFormFieldStateOnValueChange
  rw [h]

theorem update_same (m : FormManager) (nm : String) (v : Val) (f : FormField)
    (h : lookupField m.formFields nm = some f) (hv : f.value = v) :
    m.updateFormFieldStateOnValueChange nm v = .ok (updTouched m nm f, []) := by
  unfold FormManager.updateFormFieldStateOnValueChange updTouched
  rw [h]
  simp only []
  rw [if_pos hv]

theorem update_changed (m : FormManager) (nm : String) (v : Val) (f : FormField)
    (h : lookupField m.formFields nm = some f) (hv : ¬ f.value = v) :
    m.updateFormFieldStateOnValueChange nm v =
      (match (updWritten m nm v f).runValidations nm with
       | .error e => .error e
       | .ok (m2, trV) =>
           match runConditionalList nm m2 (activeDeps m2 nm) with
           | .error e => .error e
           | .ok (m3, tr1) =>
               match runConditionalList nm m3 (removedDeps m3 nm) with
               | .error e => .error e
               | .ok (m4, tr2) => .ok (m4, trV ++ tr1 ++ tr2)) := by
  unfold FormManager.updateFormFieldStateOnValueChange updWritten updTouched
  rw [h]
  simp only []
  rw [if_neg hv]

theorem mem_activeDeps (m : FormManager) (nm n : String) :
    n ∈ activeDeps m nm ↔ ∃ f, lookupField m.formFields n = some f ∧
      f.conditional.dependencies.contains nm = true := by
  unfold activeDeps
  rw [List.mem_filter]
  cases hl : lookupField m.formFields n with
  | none => simp [mem_keysOf_iff, hl]
  | some f => simp [mem_keysOf_iff, hl]

theorem mem_removedDeps (m : FormManager) (nm n : String) :
    n ∈ removedDeps m nm ↔ ∃ f, lookupField m.conditionallyRemovedFormFields n = some f ∧
      f.conditional.dependencies.contains nm = true := by
  unfold removedDeps
  rw [List.mem_filter]
  cases hl : lookupField m.conditionallyRemovedFormFields n with
  | none => simp [mem_keysOf_iff, hl]
  | some f => simp [mem_keysOf_iff, hl]

theorem nodup_activeDeps (m : FormManager) (nm : String)
    (h : (keysOf m.formFields).Nodup) : (activeDeps m nm).Nodup :=
  List.Nodup.filter _ h

theorem nodup_removedDeps (m : FormManager) (nm : String)
    (h : (keysOf m.conditionallyRemovedFormFields).Nodup) : (removedDeps m nm).Nodup :=
  List.Nodup.filter _ h

/-- When the target is active and the value differs, the whole update
succeeds and produces the validation trace followed by the two
conditional passes, the second pass computed on the state the first pass
left behind. -/
theorem update_changed_ok (m : FormManager) (nm : String) (v : Val) (f : FormField)
    (h : lookupField m.formFields nm = some f) (hv : ¬ f.value = v) :
    ∃ m2 m3 m4,
      (updWritten m nm v f).runValidations nm =
        .ok (m2, ((updWritten m nm v f).getValidityOfFormField
          { f with isTouched := true, value := v }).2) ∧
      runConditionalList nm m2 (activeDeps m2 nm) =
        .ok (m3, (activeDeps m2 nm).map Ev.cond) ∧
      runConditionalList nm m3 (removedDeps m3 nm) =
        .ok (m4, (removedDeps m3 nm).map Ev.cond) ∧
      m.updateFormFieldStateOnValueChange nm v =
        .ok (m4, ((updWritten m nm v f).getValidityOfFormField
              { f with isTouched := true, value := v }).2
            ++ (activeDeps m2 nm).map Ev.cond ++ (removedDeps m3 nm).map Ev.cond) := by
  have hset : lookupField (updWritten m nm v f).formFields nm =
      some { f with isTouched := true, value := v } := by
    unfold updWritten updTouched
    exact lookupField_setField_self _ _ _
  have hval := runValidations_of_lookup (updWritten m nm v f) nm
    { f with isTouched := true, value := v } hset
  obtain ⟨m2, hval2⟩ : ∃ m2, (updWritten m nm v f).runValidations nm =
      .ok (m2, ((updWritten m nm v f).getValidityOfFormField
        { f with isTouched := true, value := v }).2) := ⟨_, hval⟩
  have hpres1 : ∀ n ∈ activeDeps m2 nm, memEither m2 n = true := by
    intro n hn
    obtain ⟨g, hg, _⟩ := (mem_activeDeps m2 nm n).mp hn
    unfold memEither memA
    rw [hg]
    simp
  obtain ⟨m3, hlist1⟩ := runConditionalList_total nm (activeDeps m2 nm) m2 hpres1
  have hpres2 : ∀ n ∈ removedDeps m3 nm, memEither m3 n = true := by
    intro n hn
    obtain ⟨g, hg, _⟩ := (mem_removedDeps m3 nm n).mp hn
    unfold memEither memR
    rw [hg]
    simp
  obtain ⟨m4, hlist2⟩ := runConditionalList_total nm (removedDeps m3 nm) m3 hpres2
  refine ⟨m2, m3, m4, hval2, hlist1, hlist2, ?_⟩
  rw [update_changed m nm v f h hv, hval2]
  simp only []
  rw [hlist1]
  simp only []
  rw [hlist2]

/-
  Rule-loop facts.
-/

theorem runRulesLoop_all_pass (view : FormView) (val : Val) (rules : List ValidationRule)
    (h : ∀ r ∈ rules, r.validate val view = true) :
    runRulesLoop view val rules =
      ({ isValid := true, errorMessage := "" }, rules.map (fun r => Ev.vr r.type)) := by
  induction rules with
  | nil => rfl
  | cons r rest ih =>
      have hr := h r (List.mem_cons_self r rest)
      have ihr := ih (fun r' hr' => h r' (List.mem_cons_of_mem r hr'))
      unfold runRulesLoop
      rw [hr, ihr]
      simp

theorem runRulesLoop_first_fail (view : FormView) (val : Val)
    (pre : List ValidationRule) (r : ValidationRule) (post : List ValidationRule)
    (hpre : ∀ r' ∈ pre, r'.validate val view = true)
    (hr : r.validate val view = false) :
    runRulesLoop view val (pre ++ r :: post) =
      ({ isValid := false, errorMessage := r.errorMessage },
       (pre ++ [r]).map (fun r' => Ev.vr r'.type)) := by
  induction pre with
  | nil =>
      rw [List.nil_append]
      simp [runRulesLoop, hr]
  | cons p rest ih =>
      have hp := hpre p (List.mem_cons_self p rest)
      have ihr := ih (fun r' hr' => hpre r' (List.mem_cons_of_mem p hr'))
      rw [List.cons_append]
      simp [runRulesLoop, hp, ihr]

theorem count_cond_runRulesLoop (view : FormView) (val : Val)
    (rules : List ValidationRule) (d : String) :
    ((runRulesLoop view val rules).2).count (Ev.cond d) = 0 := by
  induction rules with
  | nil => rfl
  | cons r rest ih =>
      unfold runRulesLoop
      cases hp : r.validate val view <;> simp [hp, List.count_cons, ih]

/-
  Helpers for stating results about computed calls, and concrete data used
  by witnesses and counterexamples.
-/

/-- The trace of a call result (empty for a thrown error). -/
def trOf (r : Except String (FormManager × List Ev)) : List Ev :=
  match r with
  | .ok p => p.2
  | .error _ => []

/-- Whether the call returned normally. -/
def isOkE (r : Except String (FormManager × List Ev)) : Bool :=
  match r with
  | .ok _ => true
  | .error _ => false

/-- The state a call left behind: the new state on success, the old state
when the TypeScript would have thrown before mutating anything (all the
engine's throws happen before any state write). -/
def stateOf (m : FormManager) (r : Except String (FormManager × List Ev)) : FormManager :=
  match r with
  | .ok p => p.1
  | .error _ => m

/-- Caller-side configuration step: the source's comments show callers
assigning `validationRules` and `conditional` through a field reference
(for example `this.formManager.get('username').validationRules = ...`);
this helper replaces the conditional of the named field's record, wherever
the record lives. -/
def setConditionalIn (m : FormManager) (nm : String) (c : FormFieldConditional) :
    FormManager :=
  match lookupField m.formFields nm with
  | some f => { m with formFields := setField m.formFields nm { f with conditional := c } }
  | none =>
      match lookupField m.conditionallyRemovedFormFields nm with
      | some f => { m with conditionallyRemovedFormFields := setField m.conditionallyRemovedFormFields nm { f with conditional := c } }
      | none => m

/-- Caller-side configuration step for validation rules. -/
def setRulesIn (m : FormManager) (nm : String) (rs : List ValidationRule) :
    FormManager :=
  match lookupField m.formFields nm with
  | some f => { m with formFields := setField m.formFields nm { f with validationRules := rs } }
  | none =>
      match lookupField m.conditionallyRemovedFormFields nm with
      | some f => { m with conditionallyRemovedFormFields := setField m.conditionallyRemovedFormFields nm { f with validationRules := rs } }
      | none => m

def reqRule : ValidationRule :=
  { type := "REQUIRED"
    errorMessage := "Username is required."
    validate := fun v _ => decide (0 < v.length) }

def minLengthRule : ValidationRule :=
  { type := "MIN_LENGTH"
    errorMessage := "Username should contain at least 3 characters."
    validate := fun v _ => decide (3 ≤ v.length) }

def usernameField : FormField :=
  { name := "username", value := "", validationRules := [reqRule, minLengthRule] }

def fieldA : FormField := { name := "A", value := "x" }

def mgrA : FormManager := (emptyFM.addFormField "A" "x").1

def condNever : FormFieldConditional :=
  { isShowing := fun _ => false, dependencies := [] }

def mgrC3 : FormManager :=
  let m0 := setConditionalIn (emptyFM.addFormField "A" "").1 "A" condNever
  stateOf m0 (m0.runConditional "A" "init")

/-
  Claim C6.
-/

/-- C6: getValidityOfFormField iterates the field's validationRules in
declaration order; if every rule passes (or the list is empty) the result
is isValid = true with errorMessage = "" and every rule was evaluated; at
the first failing rule the result is isValid = false with that rule's
errorMessage, and the evaluation trace stops there, so later rules are
not consulted. -/
theorem claim_C6 (m : FormManager) (f : FormField) :
    ((∀ r ∈ f.validationRules, r.validate f.value m.view = true) →
      m.getValidityOfFormField f =
        ({ isValid := true, errorMessage := "" },
         f.validationRules.map (fun r => Ev.vr r.type))) ∧
    (∀ pre r post, f.validationRules = pre ++ r :: post →
      (∀ r' ∈ pre, r'.validate f.value m.view = true) →
      r.validate f.value m.view = false →
      m.getValidityOfFormField f =
        ({ isValid := false, errorMessage := r.errorMessage },
         (pre ++ [r]).map (fun r' => Ev.vr r'.type))) := by
  constructor
  · intro h
    unfold FormManager.getValidityOfFormField
    exact runRulesLoop_all_pass m.view f.value f.validationRules h
  · intro pre r post heq hpre hr
    unfold FormManager.getValidityOfFormField
    rw [heq]
    exact runRulesLoop_first_fail m.view f.value pre r post hpre hr

/-- Witness for C6: a REQUIRED rule followed by a MIN_LENGTH rule, on the
empty string, reports the REQUIRED error and never evaluates MIN_LENGTH. -/
theorem claim_C6_witness :
    usernameField.validationRules = [] ++ reqRule :: [minLengthRule] ∧
    reqRule.validate usernameField.value emptyFM.view = false ∧
    emptyFM.getValidityOfFormField usernameField =
      ({ isValid := false, errorMessage := "Username is required." },
       [Ev.vr "REQUIRED"]) :=
  ⟨rfl, rfl,
   (claim_C6 emptyFM usernameField).2 [] reqRule [minLengthRule] rfl
     (fun r' hr' => absurd hr' (List.not_mem_nil r')) rfl⟩

/-
  Claim C7.
-/

theorem isFormValidLoop_iff (fs : List FormField) :
    isFormValidLoop fs = true ↔ ∀ f ∈ fs, f.isValid = true := by
  induction fs with
  | nil => simp [isFormValidLoop]
  | cons f rest ih =>
      cases hf : f.isValid <;> simp [isFormValidLoop, hf, ih]

/-- C7: isFormValid returns true exactly when every record of the active
mapping has isValid = true, and the removed mapping has no effect on the
result at all. -/
theorem claim_C7 (m : FormManager) :
    (m.isFormValid = true ↔ ∀ p ∈ m.formFields, p.2.isValid = true) ∧
    (∀ rm, FormManager.isFormValid
        { formFields := m.formFields, conditionallyRemovedFormFields := rm } =
      m.isFormValid) := by
  constructor
  · unfold FormManager.isFormValid
    rw [isFormValidLoop_iff]
    constructor
    · intro h p hp
      exact h p.2 (List.mem_map_of_mem _ hp)
    · intro h g hg
      obtain ⟨p, hp, hpe⟩ := List.mem_map.mp hg
      exact hpe ▸ h p hp
  · intro rm
    rfl

/-
  Claim C10.
-/

/-- C10: with an empty active mapping isFormValid is vacuously true,
whatever sits in the removed mapping. -/
theorem claim_C10 (m : FormManager) (h : m.formFields = []) :
    m.isFormValid = true := by
  unfold FormManager.isFormValid
  rw [h]
  rfl

def invalidHiddenField : FormField := { name := "hidden", value := "" }

def mgrOnlyHidden : FormManager :=
  { formFields := [], conditionallyRemovedFormFields := [("hidden", invalidHiddenField)] }

/-- Witness for C10: a manager whose only field is hidden and invalid is
still a valid form. -/
theorem claim_C10_witness :
    mgrOnlyHidden.formFields = [] ∧
    (lookupField mgrOnlyHidden.conditionallyRemovedFormFields "hidden").map
      (fun f => f.isValid) = some false ∧
    mgrOnlyHidden.isFormValid = true :=
  ⟨rfl, rfl, claim_C10 mgrOnlyHidden rfl⟩

/-
  Claim C5.
-/

/-- C5: updating an active field with its current value sets isTouched and
nothing else: the call returns with an empty evaluation trace (no rule and
no conditional predicate runs), the target record keeps its value,
isValid and errorMessage, every other record and the removed mapping are
untouched, and both mappings keep their keys. -/
theorem claim_C5 (m : FormManager) (nm : String) (f : FormField)
    (h : lookupField m.formFields nm = some f) :
    m.updateFormFieldStateOnValueChange nm f.value = .ok (updTouched m nm f, []) ∧
    lookupField (updTouched m nm f).formFields nm = some { f with isTouched := true } ∧
    (lookupField (updTouched m nm f).formFields nm).map
      (fun g => (g.value, g.isValid, g.errorMessage)) =
      some (f.value, f.isValid, f.errorMessage) ∧
    (∀ k, k ≠ nm →
      lookupField (updTouched m nm f).formFields k = lookupField m.formFields k) ∧
    (updTouched m nm f).conditionallyRemovedFormFields =
      m.conditionallyRemovedFormFields ∧
    keysOf (updTouched m nm f).formFields = keysOf m.formFields := by
  refine ⟨update_same m nm f.value f h rfl, ?_, ?_, ?_, rfl, ?_⟩
  · unfold updTouched
    exact lookupField_setField_self _ _ _
  · unfold updTouched
    rw [lookupField_setField_self]
    rfl
  · intro k hk
    unfold updTouched
    exact lookupField_setField_ne _ _ _ _ hk
  · unfold updTouched
    exact keysOf_setField_of_isSome _ _ _ (by rw [h]; rfl)

/-- Witness for C5 at a one-field manager holding value "x". -/
theorem claim_C5_witness :
    lookupField mgrA.formFields "A" = some fieldA ∧
    mgrA.updateFormFieldStateOnValueChange "A" "x" =
      .ok (updTouched mgrA "A" fieldA, []) ∧
    lookupField (updTouched mgrA "A" fieldA).formFields "A" =
      some { fieldA with isTouched := true } ∧
    keysOf (updTouched mgrA "A" fieldA).formFields = keysOf mgrA.formFields :=
  ⟨rfl, (claim_C5 mgrA "A" fieldA rfl).1, (claim_C5 mgrA "A" fieldA rfl).2.1,
   (claim_C5 mgrA "A" fieldA rfl).2.2.2.2.2⟩

/-
  Claim C3.
-/

/-- Counterexample for C3: a conditionally hidden field.  removeField
returns `undefined` instead of the field, does not delete it from the
removed mapping (so a hidden field cannot be removed), and no error is
raised — contradicting the claim that the field is deleted and returned
from whichever mapping holds it. -/
theorem claim_C3_counterexample :
    memR mgrC3 "A" = true ∧
    memA mgrC3 "A" = false ∧
    (mgrC3.removeFormField "A").1 = none ∧
    memR (mgrC3.removeFormField "A").2 "A" = true ∧
    (mgrC3.removeFormField "A").2.conditionallyRemovedFormFields =
      mgrC3.conditionallyRemovedFormFields :=
  ⟨rfl, rfl, rfl, rfl, rfl⟩

/-- C3 amended: removeFormField reads and deletes from the active mapping
only.  When the name is not active (absent everywhere or conditionally
hidden) it returns `undefined` and leaves the whole manager unchanged,
raising no error; when the name is active it returns that record, deletes
exactly that key from the active mapping, and never touches the removed
mapping. -/
theorem claim_C3_amended (m : FormManager) (nm : String) :
    (lookupField m.formFields nm = none →
      (m.removeFormField nm).1 = none ∧ (m.removeFormField nm).2 = m) ∧
    (∀ f, lookupField m.formFields nm = some f →
      (m.removeFormField nm).1 = some f ∧
      lookupField (m.removeFormField nm).2.formFields nm = none ∧
      (∀ k, k ≠ nm →
        lookupField (m.removeFormField nm).2.formFields k =
          lookupField m.formFields k)) ∧
    (m.removeFormField nm).2.conditionallyRemovedFormFields =
      m.conditionallyRemovedFormFields := by
  refine ⟨?_, ?_, rfl⟩
  · intro h
    refine ⟨h, ?_⟩
    show { m with formFields := delField m.formFields nm } = m
    rw [delField_of_lookup_none m.formFields nm h]
  · intro f hf
    exact ⟨hf, lookupField_delField_self _ _,
      fun k hk => lookupField_delField_ne _ _ _ hk⟩

/-- Witness for C3 amended, active branch: removing an active field
returns it and deletes its key. -/
theorem claim_C3_amended_witness :
    lookupField mgrA.formFields "A" = some fieldA ∧
    (mgrA.removeFormField "A").1 = some fieldA ∧
    lookupField (mgrA.removeFormField "A").2.formFields "A" = none :=
  ⟨rfl, ((claim_C3_amended mgrA "A").2.1 fieldA rfl).1,
   ((claim_C3_amended mgrA "A").2.1 fieldA rfl).2.1⟩

/-
  Claim C8.
-/

/-- C8: for a field present in exactly one mapping, runConditional
evaluates the predicate once on the constructed event and places the
record in formFields when it returns true and in
conditionallyRemovedFormFields when it returns false, leaving every other
name alone; and when a second run sees the same predicate result, the
state is left exactly as it was. -/
theorem claim_C8 (m : FormManager) (nm r : String) (f : FormField)
    (hfind : findFormField m nm = some f)
    (honely : exactlyOneB m nm = true) :
    m.runConditional nm r = .ok ((m.applyConditional nm r f).1, [Ev.cond nm]) ∧
    (f.conditional.isShowing (condEventFor m r f) = true →
      lookupField (m.applyConditional nm r f).1.formFields nm = some f ∧
      lookupField (m.applyConditional nm r f).1.conditionallyRemovedFormFields nm =
        none) ∧
    (f.conditional.isShowing (condEventFor m r f) = false →
      lookupField (m.applyConditional nm r f).1.formFields nm = none ∧
      lookupField (m.applyConditional nm r f).1.conditionallyRemovedFormFields nm =
        some f) ∧
    (∀ k, k ≠ nm →
      lookupField (m.applyConditional nm r f).1.formFields k =
        lookupField m.formFields k ∧
      lookupField (m.applyConditional nm r f).1.conditionallyRemovedFormFields k =
        lookupField m.conditionallyRemovedFormFields k) ∧
    (f.conditional.isShowing (condEventFor (m.applyConditional nm r f).1 r f) =
        f.conditional.isShowing (condEventFor m r f) →
      (m.applyConditional nm r f).1.runConditional nm r =
        .ok ((m.applyConditional nm r f).1, [Ev.cond nm])) := by
  have hrun := runConditional_of_find_some m nm r f hfind
  clear honely
  refine ⟨hrun, ?_, ?_, ?_, ?_⟩
  · intro hb
    rw [applyConditional_state, if_pos hb]
    exact ⟨lookupField_setField_self _ _ _, lookupField_delField_self _ _⟩
  · intro hb
    rw [applyConditional_state, if_neg (by rw [hb]; exact Bool.false_ne_true)]
    exact ⟨lookupField_delField_self _ _, lookupField_setField_self _ _ _⟩
  · intro k hk
    exact runConditional_lookup_ne m nm r _ _ k hk hrun
  · intro hsame
    have hfind2 : findFormField (m.applyConditional nm r f).1 nm = some f := by
      rw [runConditional_pres_find m nm r _ _ hrun nm]
      exact hfind
    have hrun2 := runConditional_of_find_some (m.applyConditional nm r f).1 nm r f hfind2
    rw [hrun2]
    have hstate : ((m.applyConditional nm r f).1.applyConditional nm r f).1 =
        (m.applyConditional nm r f).1 := by
      rw [applyConditional_state ((m.applyConditional nm r f).1) nm r f, hsame]
      cases hb : f.conditional.isShowing (condEventFor m r f) with
      | true =>
          rw [if_pos rfl]
          have h1 : lookupField (m.applyConditional nm r f).1.formFields nm = some f := by
            rw [applyConditional_state, if_pos hb]
            exact lookupField_setField_self _ _ _
          have h2 : lookupField
              (m.applyConditional nm r f).1.conditionallyRemovedFormFields nm = none := by
            rw [applyConditional_state, if_pos hb]
            exact lookupField_delField_self _ _
          rw [setField_of_lookup_eq _ _ _ h1, delField_of_lookup_none _ _ h2]
      | false =>
          rw [if_neg Bool.false_ne_true]
          have h1 : lookupField (m.applyConditional nm r f).1.formFields nm = none := by
            rw [applyConditional_state, if_neg (by rw [hb]; exact Bool.false_ne_true)]
            exact lookupField_delField_self _ _
          have h2 : lookupField
              (m.applyConditional nm r f).1.conditionallyRemovedFormFields nm =
              some f := by
            rw [applyConditional_state, if_neg (by rw [hb]; exact Bool.false_ne_true)]
            exact lookupField_setField_self _ _ _
          rw [setField_of_lookup_eq _ _ _ h2, delField_of_lookup_none _ _ h1]
    rw [hstate]

/-- The spec's country/state conditional: the state field is visible only
while the active country value is "US". -/
def stateCond : FormFieldConditional :=
  { isShowing := fun e => e.view.activeValues.lookup "country" == some "US"
    dependencies := ["country"] }

def stateFieldUS : FormField :=
  { name := "state", value := "", conditional := stateCond }

def mgrCS_US : FormManager :=
  setConditionalIn
    (((emptyFM.addFormField "country" "US").1.addFormField "state" "").1)
    "state" stateCond

/-- Witness for C8: running the state field's conditional while country is
"US" keeps it active, and a second run with the same predicate result
changes nothing. -/
theorem claim_C8_witness :
    findFormField mgrCS_US "state" = some stateFieldUS ∧
    exactlyOneB mgrCS_US "state" = true ∧
    mgrCS_US.runConditional "state" "manual" =
      .ok ((mgrCS_US.applyConditional "state" "manual" stateFieldUS).1,
           [Ev.cond "state"]) ∧
    lookupField (mgrCS_US.applyConditional "state" "manual" stateFieldUS).1.formFields
      "state" = some stateFieldUS ∧
    (mgrCS_US.applyConditional "state" "manual" stateFieldUS).1.runConditional
      "state" "manual" =
      .ok ((mgrCS_US.applyConditional "state" "manual" stateFieldUS).1,
           [Ev.cond "state"]) :=
  ⟨rfl, rfl,
   (claim_C8 mgrCS_US "state" "manual" stateFieldUS rfl rfl).1,
   ((claim_C8 mgrCS_US "state" "manual" stateFieldUS rfl rfl).2.1 rfl).1,
   (claim_C8 mgrCS_US "state" "manual" stateFieldUS rfl rfl).2.2.2.2 rfl⟩

/-
  Dependency bookkeeping for the propagation claims.
-/

/-- Whether the named field's record (wherever it lives) declares a
dependency on `nm`. -/
def depB (m : FormManager) (d nm : String) : Bool :=
  match condOf m d with
  | some c => c.dependencies.contains nm
  | none => false

theorem mem_activeDeps_iff_dep (m : FormManager) (nm d : String)
    (hA : memA m d = true) : d ∈ activeDeps m nm ↔ depB m d nm = true := by
  unfold memA at hA
  cases hl : lookupField m.formFields d with
  | none => rw [hl] at hA; simp at hA
  | some g =>
      rw [mem_activeDeps]
      unfold depB condOf findFormField
      rw [hl]
      simp

theorem not_mem_activeDeps (m : FormManager) (nm d : String)
    (hA : memA m d = false) : d ∉ activeDeps m nm := by
  intro hmem
  obtain ⟨g, hg, _⟩ := (mem_activeDeps m nm d).mp hmem
  unfold memA at hA
  rw [hg] at hA
  simp at hA

theorem mem_removedDeps_iff_dep (m : FormManager) (nm d : String)
    (hA : memA m d = false) (hR : memR m d = true) :
    d ∈ removedDeps m nm ↔ depB m d nm = true := by
  unfold memA at hA
  unfold memR at hR
  cases hl : lookupField m.conditionallyRemovedFormFields d with
  | none => rw [hl] at hR; simp at hR
  | some g =>
      cases hla : lookupField m.formFields d with
      | some g' => rw [hla] at hA; simp at hA
      | none =>
          rw [mem_removedDeps]
          unfold depB condOf findFormField
          rw [hl, hla]
          simp

theorem not_mem_removedDeps (m : FormManager) (nm d : String)
    (hR : memR m d = false) : d ∉ removedDeps m nm := by
  intro hmem
  obtain ⟨g, hg, _⟩ := (mem_removedDeps m nm d).mp hmem
  unfold memR at hR
  rw [hg] at hR
  simp at hR

theorem count_map_cond (L : List String) (d : String) :
    (L.map Ev.cond).count (Ev.cond d) = L.count d := by
  induction L with
  | nil => rfl
  | cons x xs ih => simp [List.count_cons, ih]

theorem mem_map_cond (L : List String) (d : String) :
    Ev.cond d ∈ L.map Ev.cond ↔ d ∈ L := by
  rw [List.mem_map]
  constructor
  · rintro ⟨x, hx, he⟩
    cases he
    exact hx
  · intro hd
    exact ⟨d, hd, rfl⟩

theorem cond_not_mem_runRulesLoop (view : FormView) (val : Val)
    (rules : List ValidationRule) (d : String) :
    Ev.cond d ∉ (runRulesLoop view val rules).2 :=
  List.count_eq_zero.mp (count_cond_runRulesLoop view val rules d)

/-- What the touched-and-value write changes, seen through the derived
observations: key membership in both mappings, every conditional, and the
active key list are untouched (the record of `a` changes, its conditional
does not). -/
theorem updWritten_facts (m : FormManager) (a : String) (v : Val) (f : FormField)
    (h : lookupField m.formFields a = some f) :
    (∀ k, memA (updWritten m a v f) k = memA m k) ∧
    (∀ k, memR (updWritten m a v f) k = memR m k) ∧
    (∀ k, condOf (updWritten m a v f) k = condOf m k) ∧
    keysOf (updWritten m a v f).formFields = keysOf m.formFields ∧
    (updWritten m a v f).conditionallyRemovedFormFields =
      m.conditionallyRemovedFormFields := by
  have hmid : lookupField (setField m.formFields a { f with isTouched := true }) a =
      some { f with isTouched := true } := lookupField_setField_self _ _ _
  have hactive : ∀ k, lookupField (updWritten m a v f).formFields k =
      if k = a then some { f with isTouched := true, value := v }
      else lookupField m.formFields k := by
    intro k
    by_cases hk : k = a
    · subst hk
      rw [if_pos rfl]
      exact lookupField_setField_self _ _ _
    · rw [if_neg hk]
      show lookupField (setField (setField m.formFields a { f with isTouched := true })
        a { f with isTouched := true, value := v }) k = lookupField m.formFields k
      rw [lookupField_setField_ne _ _ _ _ hk, lookupField_setField_ne _ _ _ _ hk]
  refine ⟨?_, ?_, ?_, ?_, rfl⟩
  · intro k
    unfold memA
    rw [hactive k]
    by_cases hk : k = a
    · subst hk
      rw [if_pos rfl, h]
      rfl
    · rw [if_neg hk]
  · intro k
    rfl
  · intro k
    unfold condOf findFormField
    rw [hactive k]
    by_cases hk : k = a
    · subst hk
      rw [if_pos rfl, h]
      rfl
    · rw [if_neg hk]
      rfl
  · show keysOf (setField (setField m.formFields a { f with isTouched := true }) a
      { f with isTouched := true, value := v }) = keysOf m.formFields
    rw [keysOf_setField_of_isSome _ _ _ (by rw [hmid]; rfl),
        keysOf_setField_of_isSome _ _ _ (by rw [h]; rfl)]

/-- What a successful runValidations changes, seen through the derived
observations: nothing but the written record's validity fields. -/
theorem runValidations_facts (mV m2 : FormManager) (a : String) (tr : List Ev)
    (h : mV.runValidations a = .ok (m2, tr)) :
    (∀ k, memA m2 k = memA mV k) ∧
    (∀ k, memR m2 k = memR mV k) ∧
    (∀ k, condOf m2 k = condOf mV k) ∧
    keysOf m2.formFields = keysOf mV.formFields ∧
    m2.conditionallyRemovedFormFields = mV.conditionallyRemovedFormFields := by
  obtain ⟨f, hf, hm, htr⟩ := runValidations_ok_elim mV a m2 tr h
  refine ⟨fun k => (runValidations_pres_mem mV a m2 tr h k).1,
    fun k => (runValidations_pres_mem mV a m2 tr h k).2,
    fun k => (runValidations_pres_cond_touched mV a m2 tr h k).1, ?_, ?_⟩
  · subst hm
    exact keysOf_setField_of_isSome _ _ _ (by rw [hf]; rfl)
  · subst hm
    rfl

theorem isSome_false_eq_none {A : Type} (o : Option A) (h : o.isSome = false) :
    o = none := by
  cases o with
  | none => rfl
  | some x => simp at h

theorem depB_of_find (m : FormManager) (d nm : String) (f : FormField)
    (h : findFormField m d = some f) :
    depB m d nm = f.conditional.dependencies.contains nm := by
  unfold depB condOf
  rw [h]
  rfl

theorem depB_congr (ma mb : FormManager) (d nm : String)
    (h : condOf ma d = condOf mb d) : depB ma d nm = depB mb d nm := by
  unfold depB
  rw [h]

theorem condOf_congr_of_find (ma mb : FormManager) (k : String)
    (h : findFormField ma k = findFormField mb k) : condOf ma k = condOf mb k := by
  unfold condOf
  rw [h]

/-
  Claim C4.
-/

/-- C4: propagation is one level only.  With B depending on A and C not
depending on A (for instance C depending only on B), a changed-value
update of A runs and evaluates B's conditional predicate but never
evaluates C's predicate, even when B's visibility changes during the
call. -/
theorem claim_C4 (m : FormManager) (a b c : String) (v : Val)
    (fA fB fC : FormField)
    (hA : lookupField m.formFields a = some fA)
    (hv : ¬ fA.value = v)
    (hB : findFormField m b = some fB)
    (hBdep : fB.conditional.dependencies.contains a = true)
    (hC : findFormField m c = some fC)
    (hCdep : fC.conditional.dependencies.contains a = false)
    (hCone : atMostOneName m c = true) :
    isOkE (m.updateFormFieldStateOnValueChange a v) = true ∧
    Ev.cond b ∈ trOf (m.updateFormFieldStateOnValueChange a v) ∧
    Ev.cond c ∉ trOf (m.updateFormFieldStateOnValueChange a v) := by
  obtain ⟨m2, m3, m4, hval2, hlist1, hlist2, hupd⟩ := update_changed_ok m a v fA hA hv
  obtain ⟨hWmemA, hWmemR, hWcond, hWkeys, hWrem⟩ := updWritten_facts m a v fA hA
  obtain ⟨hVmemA, hVmemR, hVcond, hVkeys, hVrem⟩ :=
    runValidations_facts (updWritten m a v fA) m2 a _ hval2
  obtain ⟨hL1find, hL1one, hL1atm, hL1out, hL1na, hL1nr⟩ :=
    runConditionalList_pres a (activeDeps m2 a) m2 m3 _ hlist1
  have memA2 : ∀ k, memA m2 k = memA m k := fun k => (hVmemA k).trans (hWmemA k)
  have memR2 : ∀ k, memR m2 k = memR m k := fun k => (hVmemR k).trans (hWmemR k)
  have cond2 : ∀ k, condOf m2 k = condOf m k := fun k => (hVcond k).trans (hWcond k)
  have cond3 : ∀ k, condOf m3 k = condOf m k := fun k =>
    (condOf_congr_of_find m3 m2 k (hL1find k)).trans (cond2 k)
  have hdepB : depB m b a = true := by
    rw [depB_of_find m b a fB hB]
    exact hBdep
  have hdepC : depB m c a = false := by
    rw [depB_of_find m c a fC hC]
    exact hCdep
  rw [hupd]
  refine ⟨rfl, ?_, ?_⟩
  · show Ev.cond b ∈ ((updWritten m a v fA).getValidityOfFormField
        { fA with isTouched := true, value := v }).2
      ++ (activeDeps m2 a).map Ev.cond ++ (removedDeps m3 a).map Ev.cond
    rw [List.mem_append, List.mem_append]
    cases hmb : memA m b with
    | true =>
        left; right
        rw [mem_map_cond]
        rw [mem_activeDeps_iff_dep m2 a b (by rw [memA2 b]; exact hmb)]
        rw [depB_congr m2 m b a (cond2 b)]
        exact hdepB
    | false =>
        right
        rw [mem_map_cond]
        have hbnotL1 : b ∉ activeDeps m2 a :=
          not_mem_activeDeps m2 a b (by rw [memA2 b]; exact hmb)
        obtain ⟨hb1, hb2⟩ := hL1out b hbnotL1
        have hla : lookupField m.formFields b = none := by
          unfold memA at hmb
          exact isSome_false_eq_none _ hmb
        have hBr : lookupField m.conditionallyRemovedFormFields b = some fB := by
          unfold findFormField at hB
          rw [hla] at hB
          simp only [] at hB
          exact hB
        have hmbr : memR m b = true := by
          unfold memR
          rw [hBr]
          rfl
        have hA3 : memA m3 b = false := by
          unfold memA
          rw [hb1]
          rw [show (lookupField m2.formFields b).isSome = memA m2 b from rfl, memA2 b]
          exact hmb
        have hR3 : memR m3 b = true := by
          unfold memR
          rw [hb2]
          rw [show (lookupField m2.conditionallyRemovedFormFields b).isSome = memR m2 b
            from rfl, memR2 b]
          exact hmbr
        rw [mem_removedDeps_iff_dep m3 a b hA3 hR3]
        rw [depB_congr m3 m b a (cond3 b)]
        exact hdepB
  · show Ev.cond c ∉ ((updWritten m a v fA).getValidityOfFormField
        { fA with isTouched := true, value := v }).2
      ++ (activeDeps m2 a).map Ev.cond ++ (removedDeps m3 a).map Ev.cond
    rw [List.mem_append, List.mem_append]
    rintro ((hin | hin) | hin)
    · exact cond_not_mem_runRulesLoop _ _ _ c hin
    · rw [mem_map_cond] at hin
      cases hmc : memA m2 c with
      | false => exact not_mem_activeDeps m2 a c hmc hin
      | true =>
          rw [mem_activeDeps_iff_dep m2 a c hmc, depB_congr m2 m c a (cond2 c), hdepC]
            at hin
          exact Bool.false_ne_true hin
    · rw [mem_map_cond] at hin
      cases hR3 : memR m3 c with
      | false => exact not_mem_removedDeps m3 a c hR3 hin
      | true =>
          have hatm3 : atMostOneName m3 c = true := by
            refine hL1atm c ?_
            unfold atMostOneName
            rw [memA2 c, memR2 c]
            exact hCone
          have hA3 : memA m3 c = false := by
            unfold atMostOneName at hatm3
            rw [hR3] at hatm3
            cases hA3 : memA m3 c with
            | false => rfl
            | true => rw [hA3] at hatm3; simp at hatm3
          rw [mem_removedDeps_iff_dep m3 a c hA3 hR3,
            depB_congr m3 m c a (cond3 c), hdepC] at hin
          exact Bool.false_ne_true hin

def condDepOnA : FormFieldConditional :=
  { isShowing := fun e => e.view.activeValues.lookup "A" == some "on"
    dependencies := ["A"] }

def condDepOnB : FormFieldConditional :=
  { isShowing := fun e => e.view.activeValues.lookup "B" == some "x"
    dependencies := ["B"] }

def fieldAon : FormField := { name := "A", value := "on" }

def fieldBdep : FormField := { name := "B", value := "", conditional := condDepOnA }

def fieldCdep : FormField := { name := "C", value := "", conditional := condDepOnB }

def mgrABC : FormManager :=
  setConditionalIn (setConditionalIn
    ((((emptyFM.addFormField "A" "on").1).addFormField "B" "").1.addFormField "C" "").1
    "B" condDepOnA) "C" condDepOnB

/-- Witness for C4 on the chain A -> B -> C: changing A evaluates B's
predicate (B even becomes hidden) and never evaluates C's. -/
theorem claim_C4_witness :
    lookupField mgrABC.formFields "A" = some fieldAon ∧
    findFormField mgrABC "B" = some fieldBdep ∧
    findFormField mgrABC "C" = some fieldCdep ∧
    isOkE (mgrABC.updateFormFieldStateOnValueChange "A" "off") = true ∧
    Ev.cond "B" ∈ trOf (mgrABC.updateFormFieldStateOnValueChange "A" "off") ∧
    Ev.cond "C" ∉ trOf (mgrABC.updateFormFieldStateOnValueChange "A" "off") :=
  ⟨rfl, rfl, rfl,
   (claim_C4 mgrABC "A" "B" "C" "off" fieldAon fieldBdep fieldCdep rfl (by decide)
     rfl rfl rfl rfl rfl).1,
   (claim_C4 mgrABC "A" "B" "C" "off" fieldAon fieldBdep fieldCdep rfl (by decide)
     rfl rfl rfl rfl rfl).2.1,
   (claim_C4 mgrABC "A" "B" "C" "off" fieldAon fieldBdep fieldCdep rfl (by decide)
     rfl rfl rfl rfl rfl).2.2⟩

/-
  Claim C1.
-/

/-- Counterexample for C1: country = "US" with an active state field
whose conditional depends on country.  Changing country to "CA" hides
state during the active pass; the removed-fields dependency list is then
computed from the state the first pass produced, so state is evaluated a
second time: its predicate runs twice in the single call, not exactly
once as claimed. -/
theorem claim_C1_counterexample :
    (condOf mgrCS_US "state").map (fun cn => cn.dependencies) = some ["country"] ∧
    memA mgrCS_US "state" = true ∧
    isOkE (mgrCS_US.updateFormFieldStateOnValueChange "country" "CA") = true ∧
    (trOf (mgrCS_US.updateFormFieldStateOnValueChange "country" "CA")).count
      (Ev.cond "state") = 2 :=
  ⟨rfl, rfl, rfl, rfl⟩

/-- C1 amended: the active-dependents list is fixed before the first pass,
but the removed-dependents list is computed only after the first pass has
run, so a dependent hidden by the first pass is re-evaluated by the
second.  Hence every field that declares a dependency on the changed name
is evaluated at least once and at most twice in the call (twice exactly
when the active pass hides it). -/
theorem claim_C1_amended (m : FormManager) (a d : String) (v : Val)
    (fA fD : FormField)
    (hA : lookupField m.formFields a = some fA)
    (hv : ¬ fA.value = v)
    (hD : findFormField m d = some fD)
    (hDdep : fD.conditional.dependencies.contains a = true)
    (hNodA : (keysOf m.formFields).Nodup)
    (hNodR : (keysOf m.conditionallyRemovedFormFields).Nodup) :
    isOkE (m.updateFormFieldStateOnValueChange a v) = true ∧
    1 ≤ (trOf (m.updateFormFieldStateOnValueChange a v)).count (Ev.cond d) ∧
    (trOf (m.updateFormFieldStateOnValueChange a v)).count (Ev.cond d) ≤ 2 := by
  obtain ⟨m2, m3, m4, hval2, hlist1, hlist2, hupd⟩ := update_changed_ok m a v fA hA hv
  obtain ⟨hWmemA, hWmemR, hWcond, hWkeys, hWrem⟩ := updWritten_facts m a v fA hA
  obtain ⟨hVmemA, hVmemR, hVcond, hVkeys, hVrem⟩ :=
    runValidations_facts (updWritten m a v fA) m2 a _ hval2
  obtain ⟨hL1find, hL1one, hL1atm, hL1out, hL1na, hL1nr⟩ :=
    runConditionalList_pres a (activeDeps m2 a) m2 m3 _ hlist1
  have memA2 : ∀ k, memA m2 k = memA m k := fun k => (hVmemA k).trans (hWmemA k)
  have memR2 : ∀ k, memR m2 k = memR m k := fun k => (hVmemR k).trans (hWmemR k)
  have cond2 : ∀ k, condOf m2 k = condOf m k := fun k => (hVcond k).trans (hWcond k)
  have cond3 : ∀ k, condOf m3 k = condOf m k := fun k =>
    (condOf_congr_of_find m3 m2 k (hL1find k)).trans (cond2 k)
  have hdepD : depB m d a = true := by
    rw [depB_of_find m d a fD hD]
    exact hDdep
  have hnodup2A : (keysOf m2.formFields).Nodup := by
    rw [hVkeys, hWkeys]; exact hNodA
  have hnodup3R : (keysOf m3.conditionallyRemovedFormFields).Nodup := by
    refine hL1nr ?_
    rw [hVrem, hWrem]; exact hNodR
  have hV0 : (((updWritten m a v fA).getValidityOfFormField
      { fA with isTouched := true, value := v }).2).count (Ev.cond d) = 0 :=
    count_cond_runRulesLoop _ _ _ d
  rw [hupd]
  have hcount : (trOf (Except.ok (m4,
      ((updWritten m a v fA).getValidityOfFormField
        { fA with isTouched := true, value := v }).2
      ++ (activeDeps m2 a).map Ev.cond ++ (removedDeps m3 a).map Ev.cond)
      : Except String (FormManager × List Ev))).count (Ev.cond d) =
      (activeDeps m2 a).count d + (removedDeps m3 a).count d := by
    show ((((updWritten m a v fA).getValidityOfFormField
        { fA with isTouched := true, value := v }).2
      ++ (activeDeps m2 a).map Ev.cond ++ (removedDeps m3 a).map Ev.cond).count
        (Ev.cond d)) = _
    rw [List.count_append, List.count_append, hV0, count_map_cond, count_map_cond]
    omega
  refine ⟨rfl, ?_, ?_⟩
  · rw [hcount]
    cases hmd : memA m d with
    | true =>
        have hmem : d ∈ activeDeps m2 a := by
          rw [mem_activeDeps_iff_dep m2 a d (by rw [memA2 d]; exact hmd)]
          rw [depB_congr m2 m d a (cond2 d)]
          exact hdepD
        have h1 : 1 ≤ (activeDeps m2 a).count d :=
          Nat.one_le_iff_ne_zero.mpr (fun h0 => (List.count_eq_zero.mp h0) hmem)
        omega
    | false =>
        have hdnotL1 : d ∉ activeDeps m2 a :=
          not_mem_activeDeps m2 a d (by rw [memA2 d]; exact hmd)
        obtain ⟨hd1, hd2⟩ := hL1out d hdnotL1
        have hla : lookupField m.formFields d = none := by
          unfold memA at hmd
          exact isSome_false_eq_none _ hmd
        have hDr : lookupField m.conditionallyRemovedFormFields d = some fD := by
          unfold findFormField at hD
          rw [hla] at hD
          simp only [] at hD
          exact hD
        have hmdr : memR m d = true := by
          unfold memR
          rw [hDr]
          rfl
        have hA3 : memA m3 d = false := by
          unfold memA
          rw [hd1]
          rw [show (lookupField m2.formFields d).isSome = memA m2 d from rfl, memA2 d]
          exact hmd
        have hR3 : memR m3 d = true := by
          unfold memR
          rw [hd2]
          rw [show (lookupField m2.conditionallyRemovedFormFields d).isSome = memR m2 d
            from rfl, memR2 d]
          exact hmdr
        have hmem : d ∈ removedDeps m3 a := by
          rw [mem_removedDeps_iff_dep m3 a d hA3 hR3]
          rw [depB_congr m3 m d a (cond3 d)]
          exact hdepD
        have h1 : 1 ≤ (removedDeps m3 a).count d :=
          Nat.one_le_iff_ne_zero.mpr (fun h0 => (List.count_eq_zero.mp h0) hmem)
        omega
  · rw [hcount]
    have hc1 : (activeDeps m2 a).count d ≤ 1 :=
      List.nodup_iff_count_le_one.mp (nodup_activeDeps m2 a hnodup2A) d
    have hc2 : (removedDeps m3 a).count d ≤ 1 :=
      List.nodup_iff_count_le_one.mp (nodup_removedDeps m3 a hnodup3R) d
    omega

def fieldCountryUS : FormField := { name := "country", value := "US" }

/-- Witness for the amended C1 at the country/state manager. -/
theorem claim_C1_amended_witness :
    lookupField mgrCS_US.formFields "country" = some fieldCountryUS ∧
    findFormField mgrCS_US "state" = some stateFieldUS ∧
    isOkE (mgrCS_US.updateFormFieldStateOnValueChange "country" "CA") = true ∧
    1 ≤ (trOf (mgrCS_US.updateFormFieldStateOnValueChange "country" "CA")).count
      (Ev.cond "state") ∧
    (trOf (mgrCS_US.updateFormFieldStateOnValueChange "country" "CA")).count
      (Ev.cond "state") ≤ 2 :=
  ⟨rfl, rfl,
   (claim_C1_amended mgrCS_US "country" "state" "CA" fieldCountryUS stateFieldUS
     rfl (by decide) rfl rfl (by decide) (by decide)).1,
   (claim_C1_amended mgrCS_US "country" "state" "CA" fieldCountryUS stateFieldUS
     rfl (by decide) rfl rfl (by decide) (by decide)).2.1,
   (claim_C1_amended mgrCS_US "country" "state" "CA" fieldCountryUS stateFieldUS
     rfl (by decide) rfl rfl (by decide) (by decide)).2.2⟩

/-
  Operation sequences: the engine's public entry points, plus the
  caller-side configuration steps the source's comments prescribe, as a
  reified operation type for the reachability claims.  A thrown error
  leaves the state as it was (every throw in the source happens before
  any mutation).
-/

inductive Op where
  | addOp (name : String) (v : Val)
  | removeOp (name : String)
  | runValidationsOp (name : String)
  | runConditionalOp (name reason : String)
  | updateValueOp (name : String) (v : Val)
  | blurOp (name : String)
  | setConditionalOp (name : String) (c : FormFieldConditional)
  | setRulesOp (name : String) (rs : List ValidationRule)

def FormManager.applyOp (m : FormManager) : Op → FormManager
  | .addOp name v => (m.addFormField name v).1
  | .removeOp name => (m.removeFormField name).2
  | .runValidationsOp name => stateOf m (m.runValidations name)
  | .runConditionalOp name reason => stateOf m (m.runConditional name reason)
  | .updateValueOp name v => stateOf m (m.updateFormFieldStateOnValueChange name v)
  | .blurOp name => stateOf m (m.updateFormFieldStateOnBlur name)
  | .setConditionalOp name c => setConditionalIn m name c
  | .setRulesOp name rs => setRulesIn m name rs

def runOps : FormManager → List Op → FormManager
  | m, [] => m
  | m, op :: rest => runOps (m.applyOp op) rest

/-- Bookkeeping of the claims: after the sequence, has the name been added
and not subsequently removed?  (`b` is the flag so far.) -/
def stepBook (n : String) (b : Bool) : Op → Bool
  | .addOp n' _ => if n' = n then true else b
  | .removeOp n' => if n' = n then false else b
  | _ => b

def trackBook (n : String) : Bool → List Op → Bool
  | b, [] => b
  | b, op :: rest => trackBook n (stepBook n b op) rest

def inAddedNotRemoved (ops : List Op) (n : String) : Bool :=
  trackBook n false ops

/-- The side condition of the amended C2: an add is safe when its name is
not currently sitting in the removed mapping. -/
def addSafe (m : FormManager) : Op → Bool
  | .addOp name _ => !(memR m name)
  | _ => true

def safeOps : FormManager → List Op → Bool
  | _, [] => true
  | m, op :: rest => addSafe m op && safeOps (m.applyOp op) rest

/-- Whether the operation is an add of the given name. -/
def isAddOf (n : String) : Op → Bool
  | .addOp n' _ => n' == n
  | _ => false

theorem touchedOf_congr_of_find (ma mb : FormManager) (k : String)
    (h : findFormField ma k = findFormField mb k) :
    touchedOf ma k = touchedOf mb k := by
  unfold touchedOf
  rw [h]

/-
  Per-operation effects on the derived observations.
-/

theorem addFormField_lookups (m : FormManager) (nm : String) (v : Val) (k : String) :
    (k ≠ nm → lookupField (m.addFormField nm v).1.formFields k =
      lookupField m.formFields k) ∧
    (m.addFormField nm v).1.conditionallyRemovedFormFields =
      m.conditionallyRemovedFormFields ∧
    lookupField (m.addFormField nm v).1.formFields nm =
      some { name := nm, value := v } := by
  refine ⟨fun hk => ?_, rfl, ?_⟩
  · exact lookupField_setField_ne _ _ _ _ hk
  · exact lookupField_setField_self _ _ _

theorem removeFormField_lookups (m : FormManager) (nm : String) (k : String) :
    (k ≠ nm → lookupField (m.removeFormField nm).2.formFields k =
      lookupField m.formFields k) ∧
    (m.removeFormField nm).2.conditionallyRemovedFormFields =
      m.conditionallyRemovedFormFields ∧
    lookupField (m.removeFormField nm).2.formFields nm = none := by
  refine ⟨fun hk => ?_, rfl, ?_⟩
  · exact lookupField_delField_ne _ _ _ hk
  · exact lookupField_delField_self _ _

theorem setConditionalIn_facts (m : FormManager) (nm : String)
    (c : FormFieldConditional) :
    (∀ k, memA (setConditionalIn m nm c) k = memA m k) ∧
    (∀ k, memR (setConditionalIn m nm c) k = memR m k) ∧
    (∀ k, touchedOf (setConditionalIn m nm c) k = touchedOf m k) := by
  unfold setConditionalIn
  cases ha : lookupField m.formFields nm with
  | some f =>
      simp only []
      refine ⟨fun k => ?_, fun k => rfl, fun k => ?_⟩
      · unfold memA
        by_cases hk : k = nm
        · subst hk
          rw [lookupField_setField_self, ha]
          rfl
        · rw [lookupField_setField_ne _ _ _ _ hk]
      · unfold touchedOf findFormField
        by_cases hk : k = nm
        · subst hk
          rw [lookupField_setField_self, ha]
          rfl
        · rw [lookupField_setField_ne _ _ _ _ hk]
  | none =>
      cases hr : lookupField m.conditionallyRemovedFormFields nm with
      | some f =>
          simp only []
          refine ⟨fun k => rfl, fun k => ?_, fun k => ?_⟩
          · unfold memR
            by_cases hk : k = nm
            · subst hk
              rw [lookupField_setField_self, hr]
              rfl
            · rw [lookupField_setField_ne _ _ _ _ hk]
          · unfold touchedOf findFormField
            by_cases hk : k = nm
            · subst hk
              rw [lookupField_setField_self, ha, hr]
              rfl
            · rw [lookupField_setField_ne _ _ _ _ hk]
      | none =>
          exact ⟨fun k => rfl, fun k => rfl, fun k => rfl⟩

theorem setRulesIn_facts (m : FormManager) (nm : String)
    (rs : List ValidationRule) :
    (∀ k, memA (setRulesIn m nm rs) k = memA m k) ∧
    (∀ k, memR (setRulesIn m nm rs) k = memR m k) ∧
    (∀ k, touchedOf (setRulesIn m nm rs) k = touchedOf m k) := by
  unfold setRulesIn
  cases ha : lookupField m.formFields nm with
  | some f =>
      simp only []
      refine ⟨fun k => ?_, fun k => rfl, fun k => ?_⟩
      · unfold memA
        by_cases hk : k = nm
        · subst hk
          rw [lookupField_setField_self, ha]
          rfl
        · rw [lookupField_setField_ne _ _ _ _ hk]
      · unfold touchedOf findFormField
        by_cases hk : k = nm
        · subst hk
          rw [lookupField_setField_self, ha]
          rfl
        · rw [lookupField_setField_ne _ _ _ _ hk]
  | none =>
      cases hr : lookupField m.conditionallyRemovedFormFields nm with
      | some f =>
          simp only []
          refine ⟨fun k => rfl, fun k => ?_, fun k => ?_⟩
          · unfold memR
            by_cases hk : k = nm
            · subst hk
              rw [lookupField_setField_self, hr]
              rfl
            · rw [lookupField_setField_ne _ _ _ _ hk]
          · unfold touchedOf findFormField
            by_cases hk : k = nm
            · subst hk
              rw [lookupField_setField_self, ha, hr]
              rfl
            · rw [lookupField_setField_ne _ _ _ _ hk]
      | none =>
          exact ⟨fun k => rfl, fun k => rfl, fun k => rfl⟩

theorem update_ok_elim (m : FormManager) (nm : String) (v : Val)
    (m' : FormManager) (tr : List Ev)
    (h : m.updateFormFieldStateOnValueChange nm v = .ok (m', tr)) :
    ∃ f, lookupField m.formFields nm = some f ∧
      ((f.value = v ∧ m' = updTouched m nm f) ∨
       (¬ f.value = v ∧ ∃ m2 trV m3 tr1 tr2,
          (updWritten m nm v f).runValidations nm = .ok (m2, trV) ∧
          runConditionalList nm m2 (activeDeps m2 nm) = .ok (m3, tr1) ∧
          runConditionalList nm m3 (removedDeps m3 nm) = .ok (m', tr2))) := by
  cases hf : lookupField m.formFields nm with
  | none => rw [update_err m nm v hf] at h; exact absurd h (by simp)
  | some f =>
      refine ⟨f, rfl, ?_⟩
      by_cases hv : f.value = v
      · left
        refine ⟨hv, ?_⟩
        rw [update_same m nm v f hf hv] at h
        exact (congrArg (fun p => p.1) (Except.ok.inj h)).symm
      · right
        refine ⟨hv, ?_⟩
        rw [update_changed m nm v f hf hv] at h
        cases h1 : (updWritten m nm v f).runValidations nm with
        | error e => rw [h1] at h; simp at h
        | ok p1 =>
            obtain ⟨m2, trV⟩ := p1
            rw [h1] at h
            simp only [] at h
            cases h2 : runConditionalList nm m2 (activeDeps m2 nm) with
            | error e => rw [h2] at h; simp at h
            | ok p2 =>
                obtain ⟨m3, tr1⟩ := p2
                rw [h2] at h
                simp only [] at h
                cases h3 : runConditionalList nm m3 (removedDeps m3 nm) with
                | error e => rw [h3] at h; simp at h
                | ok p3 =>
                    obtain ⟨m4, tr2⟩ := p3
                    rw [h3] at h
                    simp only [] at h
                    obtain ⟨hm, htr⟩ := Prod.mk.injEq _ _ _ _ ▸ Except.ok.inj h
                    exact ⟨m2, trV, m3, tr1, tr2, rfl, h2, by rw [← hm]; exact h3⟩

theorem blur_ok_elim (m : FormManager) (nm : String)
    (m' : FormManager) (tr : List Ev)
    (h : m.updateFormFieldStateOnBlur nm = .ok (m', tr)) :
    ∃ f, lookupField m.formFields nm = some f ∧
      (updTouched m nm f).runValidations nm = .ok (m', tr) := by
  cases hf : lookupField m.formFields nm with
  | none =>
      unfold FormManager.updateFormFieldStateOnBlur at h
      rw [hf] at h
      simp at h
  | some f =>
      refine ⟨f, rfl, ?_⟩
      unfold FormManager.updateFormFieldStateOnBlur at h
      rw [hf] at h
      simp only [] at h
      exact h

/-- The touched-and-value write: touched flags elsewhere are untouched and
the target's becomes true. -/
theorem updWritten_touched (m : FormManager) (nm : String) (v : Val) (f : FormField)
    (h : lookupField m.formFields nm = some f) :
    (∀ k, k ≠ nm → touchedOf (updWritten m nm v f) k = touchedOf m k) ∧
    touchedOf (updWritten m nm v f) nm = some true := by
  constructor
  · intro k hk
    unfold touchedOf findFormField
    have h1 : lookupField (updWritten m nm v f).formFields k =
        lookupField m.formFields k := by
      show lookupField (setField (setField m.formFields nm { f with isTouched := true })
        nm { f with isTouched := true, value := v }) k = lookupField m.formFields k
      rw [lookupField_setField_ne _ _ _ _ hk, lookupField_setField_ne _ _ _ _ hk]
    rw [h1]
    rfl
  · unfold touchedOf findFormField
    have h1 : lookupField (updWritten m nm v f).formFields nm =
        some { f with isTouched := true, value := v } := by
      show lookupField (setField (setField m.formFields nm { f with isTouched := true })
        nm { f with isTouched := true, value := v }) nm = _
      exact lookupField_setField_self _ _ _
    rw [h1]
    rfl

/-- The same for the touched-only write of the short-circuit path and of
blur. -/
theorem updTouched_touched (m : FormManager) (nm : String) (f : FormField)
    (h : lookupField m.formFields nm = some f) :
    (∀ k, k ≠ nm → touchedOf (updTouched m nm f) k = touchedOf m k) ∧
    touchedOf (updTouched m nm f) nm = some true ∧
    (∀ k, memA (updTouched m nm f) k = memA m k) ∧
    (∀ k, memR (updTouched m nm f) k = memR m k) := by
  refine ⟨fun k hk => ?_, ?_, fun k => ?_, fun k => rfl⟩
  · unfold touchedOf findFormField
    have h1 : lookupField (updTouched m nm f).formFields k =
        lookupField m.formFields k := lookupField_setField_ne _ _ _ _ hk
    rw [h1]
    rfl
  · unfold touchedOf findFormField
    have h1 : lookupField (updTouched m nm f).formFields nm =
        some { f with isTouched := true } := lookupField_setField_self _ _ _
    rw [h1]
    rfl
  · unfold memA
    by_cases hk : k = nm
    · rw [hk]
      have h1 : lookupField (updTouched m nm f).formFields nm =
          some { f with isTouched := true } := lookupField_setField_self _ _ _
      rw [h1, h]
      rfl
    · have h1 : lookupField (updTouched m nm f).formFields k =
          lookupField m.formFields k := lookupField_setField_ne _ _ _ _ hk
      rw [h1]

theorem exactlyOneB_congr (ma mb : FormManager) (k : String)
    (h1 : memA ma k = memA mb k) (h2 : memR ma k = memR mb k) :
    exactlyOneB ma k = exactlyOneB mb k := by
  unfold exactlyOneB
  rw [h1, h2]

theorem atMostOneName_congr (ma mb : FormManager) (k : String)
    (h1 : memA ma k = memA mb k) (h2 : memR ma k = memR mb k) :
    atMostOneName ma k = atMostOneName mb k := by
  unfold atMostOneName
  rw [h1, h2]

/-- What a successful value-changing or short-circuited update does to the
touched flags and to the one-mapping bookkeeping: other fields' flags are
untouched, the target's flag is true afterwards, and both the
exactly-one and at-most-one properties are preserved for every name. -/
theorem update_ok_strong (m : FormManager) (nm : String) (v : Val)
    (m' : FormManager) (tr : List Ev)
    (h : m.updateFormFieldStateOnValueChange nm v = .ok (m', tr)) :
    (∀ k, k ≠ nm → touchedOf m' k = touchedOf m k) ∧
    touchedOf m' nm = some true ∧
    (∀ k, exactlyOneB m k = true → exactlyOneB m' k = true) ∧
    (∀ k, atMostOneName m k = true → atMostOneName m' k = true) := by
  obtain ⟨f, hf, hcase⟩ := update_ok_elim m nm v m' tr h
  rcases hcase with ⟨hv, hm'⟩ | ⟨hv, m2, trV, m3, tr1, tr2, h1, h2, h3⟩
  · subst hm'
    obtain ⟨ht_ne, ht_self, hmemA, hmemR⟩ := updTouched_touched m nm f hf
    refine ⟨ht_ne, ht_self, ?_, ?_⟩
    · intro k hk
      rw [exactlyOneB_congr (updTouched m nm f) m k (hmemA k) (hmemR k)]
      exact hk
    · intro k hk
      rw [atMostOneName_congr (updTouched m nm f) m k (hmemA k) (hmemR k)]
      exact hk
  · obtain ⟨hWmemA, hWmemR, hWcond, hWkeys, hWrem⟩ := updWritten_facts m nm v f hf
    obtain ⟨hWt_ne, hWt_self⟩ := updWritten_touched m nm v f hf
    obtain ⟨hVmemA, hVmemR, hVcond, hVkeys, hVrem⟩ :=
      runValidations_facts (updWritten m nm v f) m2 nm trV h1
    have hVt : ∀ k, touchedOf m2 k = touchedOf (updWritten m nm v f) k :=
      fun k => (runValidations_pres_cond_touched _ nm m2 trV h1 k).2
    obtain ⟨hL1find, hL1one, hL1atm, hx1, hx2, hx3⟩ :=
      runConditionalList_pres nm (activeDeps m2 nm) m2 m3 tr1 h2
    obtain ⟨hL2find, hL2one, hL2atm, hy1, hy2, hy3⟩ :=
      runConditionalList_pres nm (removedDeps m3 nm) m3 m' tr2 h3
    have htM : ∀ k, touchedOf m' k = touchedOf m2 k := fun k =>
      (touchedOf_congr_of_find m' m3 k (hL2find k)).trans
        (touchedOf_congr_of_find m3 m2 k (hL1find k))
    have hm2A : ∀ k, memA m2 k = memA m k := fun k => (hVmemA k).trans (hWmemA k)
    have hm2R : ∀ k, memR m2 k = memR m k := fun k => (hVmemR k).trans (hWmemR k)
    refine ⟨?_, ?_, ?_, ?_⟩
    · intro k hk
      rw [htM k, hVt k]
      exact hWt_ne k hk
    · rw [htM nm, hVt nm]
      exact hWt_self
    · intro k hk
      refine hL2one k (hL1one k ?_)
      rw [exactlyOneB_congr m2 m k (hm2A k) (hm2R k)]
      exact hk
    · intro k hk
      refine hL2atm k (hL1atm k ?_)
      rw [atMostOneName_congr m2 m k (hm2A k) (hm2R k)]
      exact hk

/-- The blur analogue. -/
theorem blur_ok_strong (m : FormManager) (nm : String)
    (m' : FormManager) (tr : List Ev)
    (h : m.updateFormFieldStateOnBlur nm = .ok (m', tr)) :
    (∀ k, k ≠ nm → touchedOf m' k = touchedOf m k) ∧
    touchedOf m' nm = some true ∧
    (∀ k, memA m' k = memA m k) ∧
    (∀ k, memR m' k = memR m k) := by
  obtain ⟨f, hf, hrv⟩ := blur_ok_elim m nm m' tr h
  obtain ⟨ht_ne, ht_self, hmemA, hmemR⟩ := updTouched_touched m nm f hf
  obtain ⟨hVmemA, hVmemR, hVcond, hVkeys, hVrem⟩ :=
    runValidations_facts (updTouched m nm f) m' nm tr hrv
  have hVt : ∀ k, touchedOf m' k = touchedOf (updTouched m nm f) k :=
    fun k => (runValidations_pres_cond_touched _ nm m' tr hrv k).2
  refine ⟨?_, ?_, ?_, ?_⟩
  · intro k hk
    rw [hVt k]
    exact ht_ne k hk
  · rw [hVt nm]
    exact ht_self
  · intro k
    rw [hVmemA k, hmemA k]
  · intro k
    rw [hVmemR k, hmemR k]

/-- One engine step keeps an added-and-not-removed name in exactly one
mapping, provided an add never targets a name currently sitting in the
removed mapping. -/
theorem stepBook_exactlyOne (m : FormManager) (op : Op) (n : String) (b : Bool)
    (hsafe : addSafe m op = true)
    (hb : b = true → exactlyOneB m n = true)
    (hstep : stepBook n b op = true) :
    exactlyOneB (m.applyOp op) n = true := by
  cases op with
  | addOp n' v =>
      show exactlyOneB (m.addFormField n' v).1 n = true
      by_cases hn : n' = n
      · subst hn
        have hsafe' : !(memR m n') = true := by simpa [addSafe] using hsafe
        have hR : memR m n' = false := by
          cases hmr : memR m n' with
          | false => rfl
          | true => rw [hmr] at hsafe'; simp at hsafe'
        have h1 : lookupField (m.addFormField n' v).1.formFields n' =
            some { name := n', value := v } := (addFormField_lookups m n' v n').2.2
        have h2 : (m.addFormField n' v).1.conditionallyRemovedFormFields =
            m.conditionallyRemovedFormFields := (addFormField_lookups m n' v n').2.1
        unfold exactlyOneB memA memR
        rw [h1, h2]
        unfold memR at hR
        rw [hR]
        rfl
      · have h1 : lookupField (m.addFormField n' v).1.formFields n =
            lookupField m.formFields n :=
          (addFormField_lookups m n' v n).1 (fun he => hn he.symm)
        have h2 := (addFormField_lookups m n' v n).2.1
        rw [exactlyOneB_congr (m.addFormField n' v).1 m n
          (by unfold memA; rw [h1]) (by unfold memR; rw [h2])]
        apply hb
        simpa [stepBook, hn] using hstep
  | removeOp n' =>
      show exactlyOneB (m.removeFormField n').2 n = true
      by_cases hn : n' = n
      · simp [stepBook, hn] at hstep
      · have h1 : lookupField (m.removeFormField n').2.formFields n =
            lookupField m.formFields n :=
          (removeFormField_lookups m n' n).1 (fun he => hn he.symm)
        have h2 := (removeFormField_lookups m n' n).2.1
        rw [exactlyOneB_congr (m.removeFormField n').2 m n
          (by unfold memA; rw [h1]) (by unfold memR; rw [h2])]
        apply hb
        simpa [stepBook, hn] using hstep
  | runValidationsOp nm =>
      have hone := hb (by simpa [stepBook] using hstep)
      show exactlyOneB (stateOf m (m.runValidations nm)) n = true
      cases hr : m.runValidations nm with
      | error e => exact hone
      | ok p =>
          obtain ⟨m', tr⟩ := p
          show exactlyOneB m' n = true
          rw [exactlyOneB_congr m' m n ((runValidations_pres_mem m nm m' tr hr n).1)
            ((runValidations_pres_mem m nm m' tr hr n).2)]
          exact hone
  | runConditionalOp nm r =>
      have hone := hb (by simpa [stepBook] using hstep)
      show exactlyOneB (stateOf m (m.runConditional nm r)) n = true
      cases hr : m.runConditional nm r with
      | error e => exact hone
      | ok p =>
          obtain ⟨m', tr⟩ := p
          show exactlyOneB m' n = true
          exact runConditional_pres_exactlyOne m nm r m' tr hr n hone
  | updateValueOp nm v =>
      have hone := hb (by simpa [stepBook] using hstep)
      show exactlyOneB (stateOf m (m.updateFormFieldStateOnValueChange nm v)) n = true
      cases hr : m.updateFormFieldStateOnValueChange nm v with
      | error e => exact hone
      | ok p =>
          obtain ⟨m', tr⟩ := p
          show exactlyOneB m' n = true
          exact (update_ok_strong m nm v m' tr hr).2.2.1 n hone
  | blurOp nm =>
      have hone := hb (by simpa [stepBook] using hstep)
      show exactlyOneB (stateOf m (m.updateFormFieldStateOnBlur nm)) n = true
      cases hr : m.updateFormFieldStateOnBlur nm with
      | error e => exact hone
      | ok p =>
          obtain ⟨m', tr⟩ := p
          show exactlyOneB m' n = true
          rw [exactlyOneB_congr m' m n ((blur_ok_strong m nm m' tr hr).2.2.1 n)
            ((blur_ok_strong m nm m' tr hr).2.2.2 n)]
          exact hone
  | setConditionalOp nm c =>
      have hone := hb (by simpa [stepBook] using hstep)
      show exactlyOneB (setConditionalIn m nm c) n = true
      rw [exactlyOneB_congr (setConditionalIn m nm c) m n
        ((setConditionalIn_facts m nm c).1 n) ((setConditionalIn_facts m nm c).2.1 n)]
      exact hone
  | setRulesOp nm rs =>
      have hone := hb (by simpa [stepBook] using hstep)
      show exactlyOneB (setRulesIn m nm rs) n = true
      rw [exactlyOneB_congr (setRulesIn m nm rs) m n
        ((setRulesIn_facts m nm rs).1 n) ((setRulesIn_facts m nm rs).2.1 n)]
      exact hone

theorem runOps_exactlyOne (ops : List Op) : ∀ m b n,
    safeOps m ops = true →
    (b = true → exactlyOneB m n = true) →
    trackBook n b ops = true →
    exactlyOneB (runOps m ops) n = true := by
  induction ops with
  | nil =>
      intro m b n _ hb ht
      exact hb (by simpa [trackBook] using ht)
  | cons op rest ih =>
      intro m b n hsafe hb ht
      have hsplit := (Bool.and_eq_true _ _).mp (by simpa [safeOps] using hsafe)
      exact ih (m.applyOp op) (stepBook n b op) n hsplit.2
        (fun hs => stepBook_exactlyOne m op n b hsplit.1 hb hs)
        (by simpa [trackBook] using ht)

/-
  Claim C2.
-/

def opsC2 : List Op :=
  [Op.addOp "A" "", Op.setConditionalOp "A" condNever,
   Op.runConditionalOp "A" "r", Op.addOp "A" ""]

/-- Counterexample for C2: add a field, configure an always-hidden
conditional, run the conditional (the field moves to the removed
mapping), then add the same name again.  addFormField writes the fresh
record into formFields without clearing the removed mapping, so the name
— added and never removed — now sits in both mappings at once. -/
theorem claim_C2_counterexample :
    inAddedNotRemoved opsC2 "A" = true ∧
    memA (runOps emptyFM opsC2) "A" = true ∧
    memR (runOps emptyFM opsC2) "A" = true ∧
    exactlyOneB (runOps emptyFM opsC2) "A" = false :=
  ⟨rfl, rfl, rfl, rfl⟩

/-- C2 amended: the exactly-one invariant holds for every name that has
been added and not removed, over every operation sequence in which an
addField never targets a name currently held by the removed mapping (an
add on a hidden name puts the name into both mappings, as the
counterexample shows; every other operation preserves the invariant
unconditionally). -/
theorem claim_C2_amended (ops : List Op) (n : String)
    (hsafe : safeOps emptyFM ops = true)
    (hn : inAddedNotRemoved ops n = true) :
    exactlyOneB (runOps emptyFM ops) n = true :=
  runOps_exactlyOne ops emptyFM false n hsafe
    (fun hx => absurd hx (by simp)) hn

def opsC2safe : List Op :=
  [Op.addOp "A" "", Op.setConditionalOp "A" condNever,
   Op.runConditionalOp "A" "r", Op.addOp "B" "x",
   Op.updateValueOp "B" "y", Op.blurOp "B", Op.removeOp "B"]

/-- Witness for the amended C2: a sequence that hides A, then adds,
updates, blurs and removes another field; A is still in exactly one
mapping afterwards. -/
theorem claim_C2_amended_witness :
    safeOps emptyFM opsC2safe = true ∧
    inAddedNotRemoved opsC2safe "A" = true ∧
    exactlyOneB (runOps emptyFM opsC2safe) "A" = true :=
  ⟨rfl, rfl, claim_C2_amended opsC2safe "A" rfl rfl⟩

/-
  Claim C9.
-/

/-- The monotonicity triple for one target state: at-most-one is kept, a
true touched flag stays true unless the record is gone, and an absent
record stays absent. -/
def TouchedStep (m X : FormManager) (n : String) : Prop :=
  atMostOneName X n = true ∧
  (touchedOf m n = some true →
    (touchedOf X n = some true ∨ touchedOf X n = none)) ∧
  (touchedOf m n = none → touchedOf X n = none)

theorem touchedStep_of_congr (m X : FormManager) (n : String)
    (hatm : atMostOneName m n = true)
    (hA : memA X n = memA m n) (hR : memR X n = memR m n)
    (hT : touchedOf X n = touchedOf m n) : TouchedStep m X n := by
  refine ⟨?_, ?_, ?_⟩
  · rw [atMostOneName_congr X m n hA hR]
    exact hatm
  · intro h
    rw [hT]
    exact Or.inl h
  · intro h
    rw [hT]
    exact h

/-- One engine step never turns a name's touched flag from true to false:
it keeps it true or deletes the record altogether — provided the step is
not an add of that very name (which installs a fresh untouched record). -/
theorem stepTouched (m : FormManager) (op : Op) (n : String)
    (hnotadd : isAddOf n op = false)
    (hatm : atMostOneName m n = true) :
    TouchedStep m (m.applyOp op) n := by
  cases op with
  | addOp n' v =>
      have hn : n' ≠ n := by
        intro he
        rw [he] at hnotadd
        simp [isAddOf] at hnotadd
      have h1 : lookupField (m.addFormField n' v).1.formFields n =
          lookupField m.formFields n :=
        (addFormField_lookups m n' v n).1 (fun he => hn he.symm)
      have h2 := (addFormField_lookups m n' v n).2.1
      have hfind : findFormField (m.addFormField n' v).1 n = findFormField m n := by
        unfold findFormField
        rw [h1, h2]
      exact touchedStep_of_congr m (m.addFormField n' v).1 n hatm
        (by unfold memA; rw [h1]) (by unfold memR; rw [h2])
        (touchedOf_congr_of_find _ m n hfind)
  | removeOp n' =>
      by_cases hn : n' = n
      · subst hn
        have h1 : lookupField (m.removeFormField n').2.formFields n' = none :=
          (removeFormField_lookups m n' n').2.2
        have h2 := (removeFormField_lookups m n' n').2.1
        have hfind : findFormField (m.removeFormField n').2 n' =
            lookupField m.conditionallyRemovedFormFields n' := by
          unfold findFormField
          rw [h1, h2]
        refine ⟨?_, ?_, ?_⟩
        · show atMostOneName (m.removeFormField n').2 n' = true
          unfold atMostOneName memA
          rw [h1]
          rfl
        · intro ht
          show touchedOf (m.removeFormField n').2 n' = some true ∨
            touchedOf (m.removeFormField n').2 n' = none
          unfold touchedOf
          rw [hfind]
          cases hA : lookupField m.formFields n' with
          | some g =>
              right
              have hAm : memA m n' = true := by unfold memA; rw [hA]; rfl
              have hRm : memR m n' = false := by
                unfold atMostOneName at hatm
                rw [hAm] at hatm
                cases hR : memR m n' with
                | false => rfl
                | true => rw [hR] at hatm; simp at hatm
              unfold memR at hRm
              rw [isSome_false_eq_none _ hRm]
              rfl
          | none =>
              left
              unfold touchedOf findFormField at ht
              rw [hA] at ht
              exact ht
        · intro ht
          show touchedOf (m.removeFormField n').2 n' = none
          unfold touchedOf
          rw [hfind]
          cases hA : lookupField m.formFields n' with
          | some g =>
              unfold touchedOf findFormField at ht
              rw [hA] at ht
              simp at ht
          | none =>
              unfold touchedOf findFormField at ht
              rw [hA] at ht
              simp only [] at ht
              exact ht
      · have h1 : lookupField (m.removeFormField n').2.formFields n =
            lookupField m.formFields n :=
          (removeFormField_lookups m n' n).1 (fun he => hn he.symm)
        have h2 := (removeFormField_lookups m n' n).2.1
        have hfind : findFormField (m.removeFormField n').2 n = findFormField m n := by
          unfold findFormField
          rw [h1, h2]
        exact touchedStep_of_congr m (m.removeFormField n').2 n hatm
          (by unfold memA; rw [h1]) (by unfold memR; rw [h2])
          (touchedOf_congr_of_find _ m n hfind)
  | runValidationsOp nm =>
      show TouchedStep m (stateOf m (m.runValidations nm)) n
      cases hr : m.runValidations nm with
      | error e =>
          exact touchedStep_of_congr m m n hatm rfl rfl rfl
      | ok p =>
          obtain ⟨m', tr⟩ := p
          show TouchedStep m m' n
          exact touchedStep_of_congr m m' n hatm
            ((runValidations_pres_mem m nm m' tr hr n).1)
            ((runValidations_pres_mem m nm m' tr hr n).2)
            ((runValidations_pres_cond_touched m nm m' tr hr n).2)
  | runConditionalOp nm r =>
      show TouchedStep m (stateOf m (m.runConditional nm r)) n
      cases hr : m.runConditional nm r with
      | error e => exact touchedStep_of_congr m m n hatm rfl rfl rfl
      | ok p =>
          obtain ⟨m', tr⟩ := p
          show TouchedStep m m' n
          refine ⟨runConditional_pres_atMostOne m nm r m' tr hr n hatm, ?_, ?_⟩
          · intro h
            rw [touchedOf_congr_of_find m' m n (runConditional_pres_find m nm r m' tr hr n)]
            exact Or.inl h
          · intro h
            rw [touchedOf_congr_of_find m' m n (runConditional_pres_find m nm r m' tr hr n)]
            exact h
  | updateValueOp nm v =>
      show TouchedStep m (stateOf m (m.updateFormFieldStateOnValueChange nm v)) n
      cases hr : m.updateFormFieldStateOnValueChange nm v with
      | error e => exact touchedStep_of_congr m m n hatm rfl rfl rfl
      | ok p =>
          obtain ⟨m', tr⟩ := p
          show TouchedStep m m' n
          obtain ⟨hne, hself, hone, hatmp⟩ := update_ok_strong m nm v m' tr hr
          refine ⟨hatmp n hatm, ?_, ?_⟩
          · intro ht
            by_cases hk : n = nm
            · rw [hk]
              exact Or.inl hself
            · rw [hne n hk]
              exact Or.inl ht
          · intro ht
            by_cases hk : n = nm
            · exfalso
              obtain ⟨f, hf, _⟩ := update_ok_elim m nm v m' tr hr
              rw [hk] at ht
              unfold touchedOf findFormField at ht
              rw [hf] at ht
              simp at ht
            · rw [hne n hk]
              exact ht
  | blurOp nm =>
      show TouchedStep m (stateOf m (m.updateFormFieldStateOnBlur nm)) n
      cases hr : m.updateFormFieldStateOnBlur nm with
      | error e => exact touchedStep_of_congr m m n hatm rfl rfl rfl
      | ok p =>
          obtain ⟨m', tr⟩ := p
          show TouchedStep m m' n
          obtain ⟨hne, hself, hmA, hmR⟩ := blur_ok_strong m nm m' tr hr
          refine ⟨by rw [atMostOneName_congr m' m n (hmA n) (hmR n)]; exact hatm, ?_, ?_⟩
          · intro ht
            by_cases hk : n = nm
            · rw [hk]
              exact Or.inl hself
            · rw [hne n hk]
              exact Or.inl ht
          · intro ht
            by_cases hk : n = nm
            · exfalso
              obtain ⟨f, hf, _⟩ := blur_ok_elim m nm m' tr hr
              rw [hk] at ht
              unfold touchedOf findFormField at ht
              rw [hf] at ht
              simp at ht
            · rw [hne n hk]
              exact ht
  | setConditionalOp nm c =>
      show TouchedStep m (setConditionalIn m nm c) n
      exact touchedStep_of_congr m (setConditionalIn m nm c) n hatm
        ((setConditionalIn_facts m nm c).1 n) ((setConditionalIn_facts m nm c).2.1 n)
        ((setConditionalIn_facts m nm c).2.2 n)
  | setRulesOp nm rs =>
      show TouchedStep m (setRulesIn m nm rs) n
      exact touchedStep_of_congr m (setRulesIn m nm rs) n hatm
        ((setRulesIn_facts m nm rs).1 n) ((setRulesIn_facts m nm rs).2.1 n)
        ((setRulesIn_facts m nm rs).2.2 n)

theorem runOps_touched (ops : List Op) : ∀ m n,
    ops.all (fun op => !(isAddOf n op)) = true →
    atMostOneName m n = true →
    (touchedOf m n = some true ∨ touchedOf m n = none) →
    (touchedOf (runOps m ops) n = some true ∨ touchedOf (runOps m ops) n = none) := by
  induction ops with
  | nil => intro m n _ _ h; exact h
  | cons op rest ih =>
      intro m n hall hatm h
      rw [List.all_cons] at hall
      have hsplit := (Bool.and_eq_true _ _).mp hall
      have hnotadd : isAddOf n op = false := by
        cases hi : isAddOf n op with
        | false => rfl
        | true =>
            have := hsplit.1
            rw [hi] at this
            simp at this
      obtain ⟨hstep1, hstep2, hstep3⟩ := stepTouched m op n hnotadd hatm
      refine ih (m.applyOp op) n hsplit.2 hstep1 ?_
      rcases h with h | h
      · exact hstep2 h
      · exact Or.inr (hstep3 h)

def mgrTouched : FormManager :=
  runOps emptyFM [Op.addOp "A" "", Op.blurOp "A"]

/-- Counterexample for C9: after add and blur the field's isTouched is
true, but one more engine operation — addFormField on the same name,
which silently overwrites with a fresh record — makes the name's
isTouched read false again. -/
theorem claim_C9_counterexample :
    touchedOf mgrTouched "A" = some true ∧
    touchedOf (mgrTouched.applyOp (Op.addOp "A" "")) "A" = some false :=
  ⟨rfl, rfl⟩

/-- C9 amended: a field's isTouched flag is monotonic across every
sequence of engine operations that never re-adds that field's name
(addFormField on an existing name replaces the record with a fresh
untouched one): once some true, it stays some true until the record is
deleted outright; and the flag becomes true on any successful
value-change or blur for the field. -/
theorem claim_C9_amended :
    (∀ (ops : List Op) (m : FormManager) (n : String),
      ops.all (fun op => !(isAddOf n op)) = true →
      atMostOneName m n = true →
      touchedOf m n = some true →
      (touchedOf (runOps m ops) n = some true ∨ touchedOf (runOps m ops) n = none)) ∧
    (∀ (m : FormManager) (nm : String) (v : Val) (m' : FormManager) (tr : List Ev),
      m.updateFormFieldStateOnValueChange nm v = .ok (m', tr) →
      touchedOf m' nm = some true) ∧
    (∀ (m : FormManager) (nm : String) (m' : FormManager) (tr : List Ev),
      m.updateFormFieldStateOnBlur nm = .ok (m', tr) →
      touchedOf m' nm = some true) :=
  ⟨fun ops m n hall hatm ht => runOps_touched ops m n hall hatm (Or.inl ht),
   fun m nm v m' tr h => (update_ok_strong m nm v m' tr h).2.1,
   fun m nm m' tr h => (blur_ok_strong m nm m' tr h).2.1⟩

def opsC9tail : List Op :=
  [Op.updateValueOp "A" "z", Op.runConditionalOp "A" "r", Op.removeOp "A"]

/-- Witness for the amended C9: starting from a touched field, a
no-re-add sequence (update, conditional, remove) never reads the flag as
false; and a concrete update and blur each leave the target touched. -/
theorem claim_C9_amended_witness :
    opsC9tail.all (fun op => !(isAddOf "A" op)) = true ∧
    atMostOneName mgrTouched "A" = true ∧
    touchedOf mgrTouched "A" = some true ∧
    (touchedOf (runOps mgrTouched opsC9tail) "A" = some true ∨
      touchedOf (runOps mgrTouched opsC9tail) "A" = none) ∧
    touchedOf (stateOf mgrA (mgrA.updateFormFieldStateOnValueChange "A" "zz")) "A" =
      some true ∧
    touchedOf (stateOf mgrA (mgrA.updateFormFieldStateOnBlur "A")) "A" = some true :=
  ⟨rfl, rfl, rfl,
   claim_C9_amended.1 opsC9tail mgrTouched "A" rfl rfl rfl,
   claim_C9_amended.2.1 mgrA "A" "zz"
     (stateOf mgrA (mgrA.updateFormFieldStateOnValueChange "A" "zz"))
     (trOf (mgrA.updateFormFieldStateOnValueChange "A" "zz")) rfl,
   claim_C9_amended.2.2 mgrA "A"
     (stateOf mgrA (mgrA.updateFormFieldStateOnBlur "A"))
     (trOf (mgrA.updateFormFieldStateOnBlur "A")) rfl⟩
